import Mathlib

/-!
Verification development for the multi-resolution hierarchy module
(`src/hierarchy.cpp` of instant-meshes): graph downsampling by greedy
weighted matching, greedy graph coloring (deterministic and parallel
variants), and constraint/solution propagation across hierarchy levels.

The C++ code is shallowly embedded:

* machine integers become `Nat` (`uint32_t` indices; the sentinel
  `INVALID = 0xFFFFFFFF` is kept as a concrete `Nat`);
* adjacency matrices (CSR `Link` arrays) become `List (List Link)`,
  one row of `(neighbor id, weight)` records per vertex;
* edge weights and surface areas become `ℚ` (the float arithmetic the
  verified claims depend on is exact: sums and comparisons with zero);
* 3-vector arithmetic in the propagation code becomes `ℝ × ℝ × ℝ`;
* `throw std::runtime_error` becomes `Except HError`;
* the `tbb` parallel loops are bulk-synchronous with disjoint output
  ranges (or explicitly serialised, for the coloring reduction), so each
  is embedded by its sequential semantics;
* the PRNG-generated permutation that seeds either coloring variant, and
  the score-sorted entry list that seeds the matching, enter as explicit
  parameters constrained to be permutations of the respective index
  ranges: every verified property is independent of the order chosen.
-/

/-- Error kinds raised by the embedded code: running out of colors
(`throw` at hierarchy.cpp:353) and an unsupported `rosy`/`posy` symmetry
(`throw` at hierarchy.cpp:553/608/616). -/
inductive HError where
  | coloringExhausted
  | unsupportedSymmetry
deriving DecidableEq

/-- One adjacency record: neighbor id plus scalar weight (the C++ `Link`
is declared in `hierarchy.h`, which is not part of the staged sources;
modelled from the spec: a 32-bit neighbor id and a scalar weight, ordered
by neighbor id). -/
structure Link where
  id : ℕ
  weight : ℚ
deriving DecidableEq

/-- Sentinel `INVALID = (uint32_t) -1` for "no parent". -/
def INVALID : ℕ := 4294967295

/-- Row `i` of a CSR adjacency matrix (`adj[i] .. adj[i+1]` in the C++). -/
def row (adj : List (List Link)) (i : ℕ) : List Link :=
  adj.getD i []

/-- The adjacency lists no vertex as its own neighbor (data-model invariant
of the spec, section 3). -/
def NoSelfLoop (adj : List (List Link)) : Prop :=
  ∀ u < adj.length, ∀ l ∈ row adj u, l.id ≠ u

/-- Every directed adjacency entry has a reverse entry. -/
def SymmAdj (adj : List (List Link)) : Prop :=
  ∀ u < adj.length, ∀ l ∈ row adj u, ∃ l' ∈ row adj l.id, l'.id = u

instance : DecidablePred NoSelfLoop := fun adj => by
  unfold NoSelfLoop; infer_instance

instance : DecidablePred SymmAdj := fun adj => by
  unfold SymmAdj; infer_instance

/-! ## Graph coloring (hierarchy.cpp:210-267 and 269-389)

Both variants keep a color per vertex (`-1` / `0xFF` meaning uncolored,
embedded as `Option ℕ`) and the number of colors allocated so far. -/

structure ColorState where
  color : ℕ → Option ℕ
  ncolors : ℕ

def initColorState : ColorState := ⟨fun _ => none, 0⟩

/-- Colors of the already-colored neighbors of `ip`: the colors the loop at
hierarchy.cpp:236-240 (resp. 332-342) marks as not possible. -/
def forbiddenColors (adj : List (List Link)) (s : ColorState) (ip : ℕ) : List ℕ :=
  (row adj ip).filterMap (fun l => s.color l.id)

/-- One iteration of the sequential greedy coloring loop
(hierarchy.cpp:230-258): choose the smallest existing color no colored
neighbor uses, or allocate a fresh color. -/
def colorStep (adj : List (List Link)) (s : ColorState) (ip : ℕ) : ColorState :=
  match (List.range s.ncolors).find? (fun j => decide (j ∉ forbiddenColors adj s ip)) with
  | some c => ⟨fun v => if v = ip then some c else s.color v, s.ncolors⟩
  | none => ⟨fun v => if v = ip then some s.ncolors else s.color v, s.ncolors + 1⟩

/-- Vertices of each color class, by ascending vertex id
(hierarchy.cpp:259-263 resp. 380-385). -/
def buildPhases (s : ColorState) (n : ℕ) : List (List ℕ) :=
  (List.range s.ncolors).map (fun c => (List.range n).filter (fun i => decide (s.color i = some c)))

/-- Deterministic coloring variant (hierarchy.cpp:210-267). `perm` is the
shuffled processing order produced by the fixed-seed PRNG at
hierarchy.cpp:222-223; it enters as a parameter that theorems constrain to
be a permutation of `0..n-1`. The C++ has no bound on the number of colors
this variant allocates. -/
def generate_graph_coloring_deterministic (adj : List (List Link)) (n : ℕ)
    (perm : List ℕ) : List (List ℕ) :=
  buildPhases (perm.foldl (colorStep adj) initColorState) n

/-- Lazy color-count growth of the parallel variant (hierarchy.cpp:335-339):
seeing a neighbor color `c ≥ nColors` grows `nColors` to `c + 1`. -/
def growColors (adj : List (List Link)) (s : ColorState) (ip : ℕ) : ℕ :=
  (row adj ip).foldl
    (fun nc l =>
      match s.color l.id with
      | some c => if nc ≤ c then c + 1 else nc
      | none => nc)
    s.ncolors

/-- One iteration of the parallel variant's coloring loop
(hierarchy.cpp:319-364), in its sequential (single worker range)
semantics: as the deterministic step, except that allocating a color when
`nColors = 0xFF - 1 = 254` existing colors are exhausted throws
(hierarchy.cpp:351-354). -/
def parColorStep (adj : List (List Link)) (s : ColorState) (ip : ℕ) :
    Except HError ColorState :=
  match (List.range (growColors adj s ip)).find? (fun j => decide (j ∉ forbiddenColors adj s ip)) with
  | some c => .ok ⟨fun v => if v = ip then some c else s.color v, growColors adj s ip⟩
  | none =>
    if growColors adj s ip = 254 then .error .coloringExhausted
    else .ok ⟨fun v => if v = ip then some (growColors adj s ip) else s.color v, growColors adj s ip + 1⟩

/-- The parallel variant's main loop over the processing order, propagating
the first error. -/
def runPar (adj : List (List Link)) : ColorState → List ℕ → Except HError ColorState
  | s, [] => .ok s
  | s, ip :: ps =>
    match parColorStep adj s ip with
    | .ok s' => runPar adj s' ps
    | .error e => .error e

/-- Parallel coloring variant (hierarchy.cpp:269-389), sequential
semantics; `perm` is the parallel shuffle's output (hierarchy.cpp:286-309). -/
def generate_graph_coloring (adj : List (List Link)) (n : ℕ) (perm : List ℕ) :
    Except HError (List (List ℕ)) :=
  (runPar adj initColorState perm).map (fun s => buildPhases s n)

/-- Complete graph on `n` vertices with unit edge weights (the adversarial
input of spec scenario e). -/
def cliqueAdj (n : ℕ) : List (List Link) :=
  (List.range n).map (fun i => ((List.range n).filter (fun j => decide (j ≠ i))).map (fun j => ⟨j, 1⟩))

/-! ## Coloring invariants -/

/-- Rows past the end of the adjacency are empty. -/
theorem row_of_le (adj : List (List Link)) {u : ℕ} (h : adj.length ≤ u) :
    row adj u = [] :=
  List.getD_eq_default _ _ h

theorem noSelfLoop_all {adj : List (List Link)} (h : NoSelfLoop adj) :
    ∀ u, ∀ l ∈ row adj u, l.id ≠ u := by
  intro u l hl
  rcases lt_or_le u adj.length with hu | hu
  · exact h u hu l hl
  · simp [row_of_le adj hu] at hl

theorem symmAdj_all {adj : List (List Link)} (h : SymmAdj adj) :
    ∀ u, ∀ l ∈ row adj u, ∃ l' ∈ row adj l.id, l'.id = u := by
  intro u l hl
  rcases lt_or_le u adj.length with hu | hu
  · exact h u hu l hl
  · simp [row_of_le adj hu] at hl

/-- Colors already assigned are below the allocation counter. -/
def ColorsBelow (s : ColorState) : Prop :=
  ∀ v c, s.color v = some c → c < s.ncolors

/-- No two vertices joined by an adjacency entry carry the same color. -/
def ProperPartial (adj : List (List Link)) (s : ColorState) : Prop :=
  ∀ u, ∀ l ∈ row adj u, ∀ cu cv, s.color u = some cu → s.color l.id = some cv → cu ≠ cv

theorem mem_forbiddenColors {adj s ip} {l : Link} {c : ℕ} (hl : l ∈ row adj ip)
    (hc : s.color l.id = some c) : c ∈ forbiddenColors adj s ip :=
  List.mem_filterMap.2 ⟨l, hl, hc⟩

theorem colorStep_color_of_ne (adj : List (List Link)) (s : ColorState) (ip : ℕ)
    {v : ℕ} (h : v ≠ ip) : (colorStep adj s ip).color v = s.color v := by
  unfold colorStep
  cases (List.range s.ncolors).find? (fun j => decide (j ∉ forbiddenColors adj s ip)) with
  | none => simp [h]
  | some c => simp [h]

theorem colorStep_isSome_iff (adj : List (List Link)) (s : ColorState) (ip v : ℕ) :
    ((colorStep adj s ip).color v).isSome ↔ v = ip ∨ (s.color v).isSome := by
  unfold colorStep
  cases (List.range s.ncolors).find? (fun j => decide (j ∉ forbiddenColors adj s ip)) with
  | none =>
    by_cases h : v = ip <;> simp [h]
  | some c =>
    by_cases h : v = ip <;> simp [h]

theorem colorStep_ncolors_le (adj : List (List Link)) (s : ColorState) (ip : ℕ) :
    s.ncolors ≤ (colorStep adj s ip).ncolors := by
  unfold colorStep
  cases (List.range s.ncolors).find? (fun j => decide (j ∉ forbiddenColors adj s ip)) with
  | none => simp
  | some c => simp

/-- The color assigned to `ip` avoids every colored neighbor of `ip`. -/
theorem colorStep_self_avoids (adj : List (List Link)) (s : ColorState) (ip : ℕ)
    (hbelow : ColorsBelow s) {c : ℕ} (hc : (colorStep adj s ip).color ip = some c) :
    c ∉ forbiddenColors adj s ip := by
  unfold colorStep at hc
  cases hfind : (List.range s.ncolors).find? (fun j => decide (j ∉ forbiddenColors adj s ip)) with
  | none =>
    rw [hfind] at hc
    simp at hc
    subst hc
    intro hmem
    rcases List.mem_filterMap.1 hmem with ⟨l, _, hcol⟩
    exact absurd (hbelow _ _ hcol) (lt_irrefl _)
  | some c' =>
    rw [hfind] at hc
    simp at hc
    have := List.find?_some hfind
    simpa [hc] using this

theorem colorStep_below (adj : List (List Link)) (s : ColorState) (ip : ℕ)
    (hbelow : ColorsBelow s) : ColorsBelow (colorStep adj s ip) := by
  intro v c hv
  unfold colorStep at hv ⊢
  cases hfind : (List.range s.ncolors).find? (fun j => decide (j ∉ forbiddenColors adj s ip)) with
  | none =>
    rw [hfind] at hv
    simp at hv ⊢
    by_cases h : v = ip
    · simp [h] at hv
      omega
    · simp [h] at hv
      exact lt_trans (hbelow _ _ hv) (Nat.lt_succ_self _)
  | some c' =>
    rw [hfind] at hv
    simp at hv ⊢
    have hmem := List.mem_of_find?_eq_some hfind
    have hlt : c' < s.ncolors := List.mem_range.1 hmem
    by_cases h : v = ip
    · simp [h] at hv
      omega
    · simp [h] at hv
      exact hbelow _ _ hv

theorem colorStep_proper {adj : List (List Link)} (hself : NoSelfLoop adj)
    (hsym : SymmAdj adj) (s : ColorState) (ip : ℕ) (hbelow : ColorsBelow s)
    (hprop : ProperPartial adj s) : ProperPartial adj (colorStep adj s ip) := by
  intro u l hl cu cv hcu hcv
  by_cases hu : u = ip <;> by_cases hv : l.id = ip
  · subst hu
    exact absurd hv (noSelfLoop_all hself u l hl)
  · subst hu
    rw [colorStep_color_of_ne adj s u hv] at hcv
    intro hEq
    exact colorStep_self_avoids adj s u hbelow hcu (hEq ▸ mem_forbiddenColors hl hcv)
  · subst hv
    rw [colorStep_color_of_ne adj s l.id hu] at hcu
    rcases symmAdj_all hsym u l hl with ⟨l', hl', hl'id⟩
    intro hEq
    have : cu ∈ forbiddenColors adj s l.id :=
      mem_forbiddenColors hl' (by rw [hl'id]; exact hcu)
    exact colorStep_self_avoids adj s l.id hbelow hcv (hEq ▸ this)
  · rw [colorStep_color_of_ne adj s ip hu] at hcu
    rw [colorStep_color_of_ne adj s ip hv] at hcv
    exact hprop u l hl cu cv hcu hcv

theorem foldl_colorStep_below {adj : List (List Link)} (ps : List ℕ) :
    ∀ s : ColorState, ColorsBelow s → ColorsBelow (ps.foldl (colorStep adj) s) := by
  induction ps with
  | nil => intro s h; exact h
  | cons p ps ih => intro s h; exact ih _ (colorStep_below adj s p h)

theorem foldl_colorStep_proper {adj : List (List Link)} (hself : NoSelfLoop adj)
    (hsym : SymmAdj adj) (ps : List ℕ) :
    ∀ s : ColorState, ColorsBelow s → ProperPartial adj s →
      ProperPartial adj (ps.foldl (colorStep adj) s) := by
  induction ps with
  | nil => intro s _ h; exact h
  | cons p ps ih =>
    intro s hb h
    exact ih _ (colorStep_below adj s p hb) (colorStep_proper hself hsym s p hb h)

theorem foldl_colorStep_isSome {adj : List (List Link)} (ps : List ℕ) :
    ∀ s : ColorState, ∀ v,
      ((ps.foldl (colorStep adj) s).color v).isSome ↔ (s.color v).isSome ∨ v ∈ ps := by
  induction ps with
  | nil => intro s v; simp
  | cons p ps ih =>
    intro s v
    rw [List.foldl_cons, ih]
    rw [colorStep_isSome_iff]
    simp
    tauto

/-! ## The parallel step agrees with the sequential greedy step

In the sequential semantics every assigned color is below the allocation
counter, so the lazy growth loop of hierarchy.cpp:335-339 never fires and
the parallel step differs from the deterministic one only in throwing at
254 exhausted colors. -/

theorem growColors_eq {adj : List (List Link)} {s : ColorState}
    (hbelow : ColorsBelow s) (ip : ℕ) : growColors adj s ip = s.ncolors := by
  unfold growColors
  generalize hls : row adj ip = ls
  clear hls
  induction ls with
  | nil => rfl
  | cons l ls ih =>
    rw [List.foldl_cons]
    have : (match s.color l.id with
        | some c => if s.ncolors ≤ c then c + 1 else s.ncolors
        | none => s.ncolors) = s.ncolors := by
      cases hc : s.color l.id with
      | none => rfl
      | some c =>
        have := hbelow _ _ hc
        simp [Nat.not_le.2 this]
    rw [this, ih]

theorem parColorStep_ok {adj : List (List Link)} {s s' : ColorState} {ip : ℕ}
    (hbelow : ColorsBelow s) (h : parColorStep adj s ip = .ok s') :
    s' = colorStep adj s ip := by
  unfold parColorStep at h
  rw [growColors_eq hbelow] at h
  unfold colorStep
  cases hfind : (List.range s.ncolors).find? (fun j => decide (j ∉ forbiddenColors adj s ip)) with
  | some c =>
    rw [hfind] at h
    simp at h
    exact h.symm
  | none =>
    rw [hfind] at h
    simp at h
    by_cases h254 : s.ncolors = 254
    · simp [h254] at h
    · simp [h254] at h
      exact h.symm

theorem parColorStep_error {adj : List (List Link)} {s : ColorState} {ip : ℕ}
    (hbelow : ColorsBelow s)
    (hfind : (List.range s.ncolors).find? (fun j => decide (j ∉ forbiddenColors adj s ip)) = none)
    (h254 : s.ncolors = 254) : parColorStep adj s ip = .error .coloringExhausted := by
  unfold parColorStep
  rw [growColors_eq hbelow, hfind]
  simp [h254]

theorem runPar_ok {adj : List (List Link)} (ps : List ℕ) :
    ∀ s s' : ColorState, ColorsBelow s → runPar adj s ps = .ok s' →
      s' = ps.foldl (colorStep adj) s := by
  induction ps with
  | nil =>
    intro s s' _ h
    unfold runPar at h
    simp at h
    simp [h]
  | cons p ps ih =>
    intro s s' hbelow h
    unfold runPar at h
    cases hstep : parColorStep adj s p with
    | error e => rw [hstep] at h; exact absurd h (by simp)
    | ok s1 =>
      rw [hstep] at h
      have h1 := parColorStep_ok hbelow hstep
      subst h1
      rw [List.foldl_cons]
      exact ih _ _ (colorStep_below adj s p hbelow) h

/-! ## From a final coloring state to valid phases -/

/-- Output contract of either coloring variant on a graph of `n` vertices
(spec, section 4.2): the phases cover exactly `{0..n-1}`, are pairwise
disjoint, and no adjacency entry joins two vertices of one phase. -/
def PhasesOk (adj : List (List Link)) (n : ℕ) (phs : List (List ℕ)) : Prop :=
  (∀ v, v ∈ phs.flatten ↔ v < n) ∧
  List.Pairwise (fun p q => ∀ v ∈ p, v ∉ q) phs ∧
  ∀ u, ∀ l ∈ row adj u, ∀ p ∈ phs, u ∈ p → l.id ∉ p

theorem buildPhases_ok {adj : List (List Link)} {s : ColorState} {n : ℕ}
    (hbelow : ColorsBelow s) (hprop : ProperPartial adj s)
    (hdom : ∀ v, (s.color v).isSome ↔ v < n) : PhasesOk adj n (buildPhases s n) := by
  refine ⟨?_, ?_, ?_⟩
  · intro v
    constructor
    · intro hv
      rcases List.mem_flatten.1 hv with ⟨p, hp, hvp⟩
      rcases List.mem_map.1 hp with ⟨c, _, rfl⟩
      exact (List.mem_filter.1 hvp).1 |> List.mem_range.1
    · intro hv
      have := (hdom v).2 hv
      rcases Option.isSome_iff_exists.1 this with ⟨c, hc⟩
      refine List.mem_flatten.2 ⟨(List.range n).filter (fun i => decide (s.color i = some c)), ?_, ?_⟩
      · exact List.mem_map.2 ⟨c, List.mem_range.2 (hbelow _ _ hc), rfl⟩
      · simp [List.mem_filter, hv, hc]
  · unfold buildPhases
    have hne : List.Pairwise (fun c c' : ℕ => c ≠ c') (List.range s.ncolors) :=
      (List.pairwise_lt_range s.ncolors).imp fun h => Nat.ne_of_lt h
    refine hne.map _ fun c c' hcc v hv hv' => ?_
    have h1 := (List.mem_filter.1 hv).2
    have h2 := (List.mem_filter.1 hv').2
    simp only [decide_eq_true_eq] at h1 h2
    rw [h1] at h2
    exact hcc (Option.some_inj.1 h2)
  · intro u l hl p hp hup
    rcases List.mem_map.1 hp with ⟨c, _, rfl⟩
    intro hlp
    have h1 := (List.mem_filter.1 hup).2
    have h2 := (List.mem_filter.1 hlp).2
    simp at h1 h2
    exact hprop u l hl c c h1 h2 rfl

/-- C3: each coloring variant, applied to a symmetric self-loop-free graph
and any processing permutation of `{0..n-1}`, returns phases that are
pairwise disjoint color classes covering exactly `{0..n-1}` with no
adjacency entry inside one class; the parallel variant whenever it returns
at all (it errors instead exactly when the greedy run would need a 255th
color). -/
theorem coloring_contract (adj : List (List Link)) (n : ℕ) (perm : List ℕ)
    (hsym : SymmAdj adj) (hself : NoSelfLoop adj) (hperm : perm.Perm (List.range n)) :
    PhasesOk adj n (generate_graph_coloring_deterministic adj n perm) ∧
    ∀ phs, generate_graph_coloring adj n perm = .ok phs → PhasesOk adj n phs := by
  have hmem : ∀ v, v ∈ perm ↔ v < n := fun v => hperm.mem_iff.trans List.mem_range
  have hbelow0 : ColorsBelow initColorState := by intro v c h; simp [initColorState] at h
  have hprop0 : ProperPartial adj initColorState := by
    intro u l _ cu cv h; simp [initColorState] at h
  have hbelow := @foldl_colorStep_below adj perm initColorState hbelow0
  have hprop := foldl_colorStep_proper hself hsym perm initColorState hbelow0 hprop0
  have hdom : ∀ v, ((perm.foldl (colorStep adj) initColorState).color v).isSome ↔ v < n := by
    intro v
    rw [foldl_colorStep_isSome]
    simp [initColorState, hmem v]
  refine ⟨buildPhases_ok hbelow hprop hdom, ?_⟩
  intro phs h
  unfold generate_graph_coloring at h
  cases hrun : runPar adj initColorState perm with
  | error e => rw [hrun] at h; exact absurd h (by simp [Except.map])
  | ok s' =>
    rw [hrun] at h
    simp [Except.map] at h
    have := runPar_ok perm initColorState s' hbelow0 hrun
    subst this
    rw [← h]
    exact buildPhases_ok hbelow hprop hdom

/-- Witness for C3 at a concrete instance: the triangle graph of spec
scenario a, with the identity processing order. -/
theorem coloring_contract_witness :
    PhasesOk [[⟨1,1⟩,⟨2,1⟩],[⟨0,1⟩,⟨2,1⟩],[⟨0,1⟩,⟨1,1⟩]] 3
      (generate_graph_coloring_deterministic
        [[⟨1,1⟩,⟨2,1⟩],[⟨0,1⟩,⟨2,1⟩],[⟨0,1⟩,⟨1,1⟩]] 3 [0,1,2]) ∧
    ∀ phs, generate_graph_coloring [[⟨1,1⟩,⟨2,1⟩],[⟨0,1⟩,⟨2,1⟩],[⟨0,1⟩,⟨1,1⟩]] 3 [0,1,2] = .ok phs →
      PhasesOk [[⟨1,1⟩,⟨2,1⟩],[⟨0,1⟩,⟨2,1⟩],[⟨0,1⟩,⟨1,1⟩]] 3 phs :=
  coloring_contract _ 3 _ (by decide) (by decide) (by decide)

/-! ## Greedy coloring of a clique

Processing any duplicate-free order of clique vertices, the greedy loop
gives the `t`-th processed vertex color `t`: after `t` vertices every
existing color is forbidden, so a fresh color is allocated each time. -/

/-- Position of `v` in a processing prefix, as the color it received. -/
def posIn (v : ℕ) : List ℕ → Option ℕ
  | [] => none
  | d :: ds => if v = d then some 0 else (posIn v ds).map (· + 1)

/-- Coloring state after greedily processing the duplicate-free list `done`
of clique vertices. -/
def stateOf (done : List ℕ) : ColorState :=
  ⟨fun v => posIn v done, done.length⟩

theorem posIn_lt {v : ℕ} : ∀ {done : List ℕ} {j : ℕ}, posIn v done = some j → j < done.length := by
  intro done
  induction done with
  | nil => intro j h; simp [posIn] at h
  | cons d ds ih =>
    intro j h
    unfold posIn at h
    by_cases hv : v = d
    · simp [hv] at h
      simp [List.length_cons]
      omega
    · simp [hv] at h
      rcases h with ⟨j', hj', rfl⟩
      exact Nat.succ_lt_succ (ih hj')

theorem posIn_eq_none {v : ℕ} : ∀ {done : List ℕ}, v ∉ done → posIn v done = none := by
  intro done
  induction done with
  | nil => intro _; rfl
  | cons d ds ih =>
    intro h
    simp at h
    unfold posIn
    simp [h.1, ih h.2]

theorem posIn_append (v p : ℕ) : ∀ done : List ℕ,
    posIn v (done ++ [p]) =
      match posIn v done with
      | some j => some j
      | none => if v = p then some done.length else none := by
  intro done
  induction done with
  | nil => simp [posIn]
  | cons d ds ih =>
    unfold posIn
    by_cases hv : v = d
    · simp [hv]
    · simp only [List.cons_append, hv, if_false, ih]
      cases hds : posIn v ds with
      | some j => simp
      | none =>
        by_cases hp : v = p <;> simp [hp]

theorem posIn_surj {done : List ℕ} (hnd : done.Nodup) :
    ∀ j < done.length, ∃ w ∈ done, posIn w done = some j := by
  induction done with
  | nil => intro j h; simp at h
  | cons d ds ih =>
    intro j hj
    cases j with
    | zero => exact ⟨d, by simp, by simp [posIn]⟩
    | succ j' =>
      have hnd' := (List.nodup_cons.1 hnd).2
      have hd : d ∉ ds := (List.nodup_cons.1 hnd).1
      rcases ih hnd' j' (by simpa using hj) with ⟨w, hw, hpos⟩
      refine ⟨w, by simp [hw], ?_⟩
      have hwd : w ≠ d := fun hEq => hd (hEq ▸ hw)
      simp [posIn, hwd, hpos]

theorem stateOf_below (done : List ℕ) : ColorsBelow (stateOf done) :=
  fun _ _ h => posIn_lt h

theorem stateOf_nil : stateOf [] = initColorState := rfl

theorem row_cliqueAdj {n p : ℕ} (hp : p < n) :
    row (cliqueAdj n) p =
      ((List.range n).filter (fun j => decide (j ≠ p))).map (fun j => ⟨j, 1⟩) := by
  unfold row cliqueAdj
  rw [List.getD_eq_getElem?_getD, List.getElem?_map]
  simp [hp]

theorem forbidden_cliqueAdj_covers {n p : ℕ} (hp : p < n) {done : List ℕ}
    (hnd : done.Nodup) (hpd : p ∉ done) (hdn : ∀ v ∈ done, v < n) :
    ∀ j < done.length, j ∈ forbiddenColors (cliqueAdj n) (stateOf done) p := by
  intro j hj
  rcases posIn_surj hnd j hj with ⟨w, hw, hpos⟩
  refine List.mem_filterMap.2 ⟨⟨w, 1⟩, ?_, hpos⟩
  rw [row_cliqueAdj hp]
  refine List.mem_map.2 ⟨w, ?_, rfl⟩
  refine List.mem_filter.2 ⟨List.mem_range.2 (hdn w hw), ?_⟩
  simp
  exact fun hEq => hpd (hEq ▸ hw)

theorem clique_find_none {n p : ℕ} (hp : p < n) {done : List ℕ}
    (hnd : done.Nodup) (hpd : p ∉ done) (hdn : ∀ v ∈ done, v < n) :
    (List.range (stateOf done).ncolors).find?
      (fun j => decide (j ∉ forbiddenColors (cliqueAdj n) (stateOf done) p)) = none := by
  rw [List.find?_eq_none]
  intro j hj
  simp only [decide_eq_true_eq, not_not]
  exact forbidden_cliqueAdj_covers hp hnd hpd hdn j (List.mem_range.1 hj)

theorem stateOf_snoc (done : List ℕ) (p : ℕ) (hpd : p ∉ done) :
    (⟨fun v => if v = p then some done.length else (stateOf done).color v,
      done.length + 1⟩ : ColorState) = stateOf (done ++ [p]) := by
  unfold stateOf
  rw [ColorState.mk.injEq]
  constructor
  · funext v
    rw [posIn_append v p done]
    by_cases hv : v = p
    · subst hv
      simp [posIn_eq_none hpd]
    · simp [hv]
      cases posIn v done with
      | some j => simp
      | none => simp [hv]
  · simp

theorem det_clique_step {n p : ℕ} (hp : p < n) {done : List ℕ}
    (hnd : done.Nodup) (hpd : p ∉ done) (hdn : ∀ v ∈ done, v < n) :
    colorStep (cliqueAdj n) (stateOf done) p = stateOf (done ++ [p]) := by
  unfold colorStep
  rw [clique_find_none hp hnd hpd hdn]
  exact stateOf_snoc done p hpd

theorem det_clique_run {n : ℕ} : ∀ (ps done : List ℕ),
    (done ++ ps).Nodup → (∀ v ∈ done ++ ps, v < n) →
    ps.foldl (colorStep (cliqueAdj n)) (stateOf done) = stateOf (done ++ ps) := by
  intro ps
  induction ps with
  | nil => intro done _ _; simp
  | cons p ps ih =>
    intro done hnd hlt
    rw [List.foldl_cons]
    have hp : p < n := hlt p (by simp)
    have hpd : p ∉ done := by
      intro h
      have := List.disjoint_of_nodup_append hnd
      exact this h (by simp)
    have hdn : ∀ v ∈ done, v < n := fun v hv => hlt v (by simp [hv])
    rw [det_clique_step hp (hnd.sublist (by simp)) hpd hdn]
    have h1 : (done ++ [p]) ++ ps = done ++ p :: ps := by simp
    have := ih (done ++ [p]) (by rw [h1]; exact hnd) (by rw [h1]; exact hlt)
    rw [this, h1]

theorem par_clique_step_ok {n p : ℕ} (hp : p < n) {done : List ℕ}
    (hnd : done.Nodup) (hpd : p ∉ done) (hdn : ∀ v ∈ done, v < n)
    (h254 : done.length ≠ 254) :
    parColorStep (cliqueAdj n) (stateOf done) p = .ok (stateOf (done ++ [p])) := by
  unfold parColorStep
  rw [growColors_eq (stateOf_below done)]
  rw [clique_find_none hp hnd hpd hdn]
  have : (stateOf done).ncolors = done.length := rfl
  rw [this]
  simp only [h254, if_false]
  rw [stateOf_snoc done p hpd]

theorem par_clique_step_error {n p : ℕ} (hp : p < n) {done : List ℕ}
    (hnd : done.Nodup) (hpd : p ∉ done) (hdn : ∀ v ∈ done, v < n)
    (h254 : done.length = 254) :
    parColorStep (cliqueAdj n) (stateOf done) p = .error .coloringExhausted := by
  apply parColorStep_error (stateOf_below done) (clique_find_none hp hnd hpd hdn)
  exact h254

theorem par_clique_run_ok {n : ℕ} : ∀ (ps done : List ℕ),
    (done ++ ps).Nodup → (∀ v ∈ done ++ ps, v < n) →
    done.length + ps.length ≤ 254 →
    runPar (cliqueAdj n) (stateOf done) ps = .ok (stateOf (done ++ ps)) := by
  intro ps
  induction ps with
  | nil => intro done _ _ _; simp [runPar]
  | cons p ps ih =>
    intro done hnd hlt hlen
    unfold runPar
    have hp : p < n := hlt p (by simp)
    have hpd : p ∉ done := fun h => (List.disjoint_of_nodup_append hnd) h (by simp)
    have hdn : ∀ v ∈ done, v < n := fun v hv => hlt v (by simp [hv])
    rw [par_clique_step_ok hp (hnd.sublist (by simp)) hpd hdn (by simp at hlen; omega)]
    show runPar (cliqueAdj n) (stateOf (done ++ [p])) ps = .ok (stateOf (done ++ p :: ps))
    have h1 : (done ++ [p]) ++ ps = done ++ p :: ps := by simp
    have := ih (done ++ [p]) (by rw [h1]; exact hnd) (by rw [h1]; exact hlt)
      (by simp at hlen ⊢; omega)
    rw [this, h1]

theorem par_clique_run_error {n : ℕ} (ps done : List ℕ) (hne : ps ≠ [])
    (hnd : (done ++ ps).Nodup) (hlt : ∀ v ∈ done ++ ps, v < n)
    (h254 : done.length = 254) :
    runPar (cliqueAdj n) (stateOf done) ps = .error .coloringExhausted := by
  cases ps with
  | nil => exact absurd rfl hne
  | cons p ps =>
    unfold runPar
    have hp : p < n := hlt p (by simp)
    have hpd : p ∉ done := fun h => (List.disjoint_of_nodup_append hnd) h (by simp)
    have hdn : ∀ v ∈ done, v < n := fun v hv => hlt v (by simp [hv])
    rw [par_clique_step_error hp (hnd.sublist (by simp)) hpd hdn h254]

theorem runPar_cons (adj : List (List Link)) (s : ColorState) (ip : ℕ) (ps : List ℕ) :
    runPar adj s (ip :: ps) =
      match parColorStep adj s ip with
      | .ok s' => runPar adj s' ps
      | .error e => .error e := rfl

theorem runPar_append (adj : List (List Link)) (xs ys : List ℕ) : ∀ s,
    runPar adj s (xs ++ ys) =
      match runPar adj s xs with
      | .ok s' => runPar adj s' ys
      | .error e => .error e := by
  induction xs with
  | nil => intro s; rfl
  | cons p xs ih =>
    intro s
    rw [List.cons_append, runPar_cons, runPar_cons]
    cases parColorStep adj s p with
    | ok s1 => exact ih s1
    | error e => rfl

theorem det_clique_255 (perm : List ℕ) (hperm : perm.Perm (List.range 255)) :
    (generate_graph_coloring_deterministic (cliqueAdj 255) 255 perm).length = 255 := by
  have hnd : perm.Nodup := hperm.nodup_iff.2 (List.nodup_range 255)
  have hlt : ∀ v ∈ perm, v < 255 := fun v hv => List.mem_range.1 (hperm.mem_iff.1 hv)
  have hlen : perm.length = 255 := by rw [hperm.length_eq, List.length_range]
  unfold generate_graph_coloring_deterministic
  rw [← stateOf_nil, det_clique_run perm [] (by simpa using hnd) (by simpa using hlt)]
  unfold buildPhases
  simp [stateOf, hlen]

theorem par_clique_255 (perm : List ℕ) (hperm : perm.Perm (List.range 255)) :
    generate_graph_coloring (cliqueAdj 255) 255 perm = .error .coloringExhausted := by
  have hnd : perm.Nodup := hperm.nodup_iff.2 (List.nodup_range 255)
  have hlt : ∀ v ∈ perm, v < 255 := fun v hv => List.mem_range.1 (hperm.mem_iff.1 hv)
  have hlen : perm.length = 255 := by rw [hperm.length_eq, List.length_range]
  unfold generate_graph_coloring
  have htd := List.take_append_drop 254 perm
  have hrun : runPar (cliqueAdj 255) initColorState perm = .error .coloringExhausted := by
    rw [← htd, runPar_append]
    have hndtd : (perm.take 254 ++ perm.drop 254).Nodup := by rw [htd]; exact hnd
    have hlttd : ∀ v ∈ perm.take 254 ++ perm.drop 254, v < 255 := by rw [htd]; exact hlt
    have htake : (perm.take 254).length = 254 := by
      simp [List.length_take, hlen]
    have hok : runPar (cliqueAdj 255) (stateOf []) (perm.take 254) =
        .ok (stateOf ([] ++ perm.take 254)) := by
      apply par_clique_run_ok
      · simpa using hnd.sublist (List.take_sublist 254 perm)
      · intro v hv
        simp at hv
        exact hlt v ((List.take_sublist 254 perm).subset hv)
      · simp [htake]
    rw [← stateOf_nil, hok]
    show runPar (cliqueAdj 255) (stateOf ([] ++ perm.take 254)) (perm.drop 254) =
      .error .coloringExhausted
    apply par_clique_run_error
    · intro h
      have : (perm.drop 254).length = 1 := by rw [List.length_drop, hlen]
      rw [h] at this
      simp at this
    · simpa using hndtd
    · simpa using hlttd
    · simpa using htake
  rw [hrun]
  rfl

/-- C1 (amended): only the parallel coloring variant guards the 254-color
limit: on the adversarial 255-clique it raises `ColoringExhausted`, while
the deterministic variant has no such check and returns 255 phases. -/
theorem clique255_coloring (perm : List ℕ) (hperm : perm.Perm (List.range 255)) :
    generate_graph_coloring (cliqueAdj 255) 255 perm = .error .coloringExhausted ∧
    (generate_graph_coloring_deterministic (cliqueAdj 255) 255 perm).length = 255 :=
  ⟨par_clique_255 perm hperm, det_clique_255 perm hperm⟩

/-- Witness for C1 (amended) at the identity processing order. -/
theorem clique255_coloring_witness :
    generate_graph_coloring (cliqueAdj 255) 255 (List.range 255) = .error .coloringExhausted ∧
    (generate_graph_coloring_deterministic (cliqueAdj 255) 255 (List.range 255)).length = 255 :=
  clique255_coloring (List.range 255) (List.Perm.refl _)

/-- Counterexample to C1 as stated: on the 255-clique the deterministic
variant does not raise any error; it returns a phase list of 255 color
classes (it computes an ordinary value of a total function with no error
outcome). -/
theorem clique255_det_returns :
    (generate_graph_coloring_deterministic (cliqueAdj 255) 255 (List.range 255)).length = 255 ∧
    254 < 255 :=
  ⟨det_clique_255 (List.range 255) (List.Perm.refl _), by decide⟩

/-! ## Graph downsampling (hierarchy.cpp:24-208)

The scoring pass (hierarchy.cpp:43-58) emits one `Entry {i, k, score}` per
directed adjacency link; the entries are then sorted by descending float
score (hierarchy.cpp:63-66). The float score values only influence that
order, so the sorted entry list enters the embedding as a parameter
constrained (per theorem) to be a permutation of the directed adjacency
pairs; every verified property holds for each such order. -/

/-- One directed candidate pair of the matching (the C++ `Entry` without
its float sort key). -/
structure Entry where
  i : ℕ
  j : ℕ
deriving DecidableEq

/-- All directed adjacency pairs `(i, adj[i][j].id)`, the pair content of
the entry array built at hierarchy.cpp:43-58. -/
def allPairs (adj : List (List Link)) : List Entry :=
  (List.range adj.length).flatMap (fun i => (row adj i).map (fun l => ⟨i, l.id⟩))

/-- One iteration of the serial greedy matching scan (hierarchy.cpp:71-77):
accept an entry iff neither endpoint is already merged; the state is the
accepted entries in order plus the merged-vertex list (`mergeFlag`). -/
def greedyStep (s : List Entry × List ℕ) (e : Entry) : List Entry × List ℕ :=
  if e.i ∈ s.2 ∨ e.j ∈ s.2 then s else (s.1 ++ [e], e.i :: e.j :: s.2)

/-- The greedy matching scan over the sorted entry list. -/
def greedyMatch (es : List Entry) : List Entry × List ℕ :=
  es.foldl greedyStep ([], [])

/-- One hierarchy level as far as the verified downsampling claims reach:
vertex count, adjacency, per-vertex surface areas. -/
structure Level where
  n : ℕ
  adj : List (List Link)
  A : List ℚ
deriving DecidableEq

instance : Inhabited Level := ⟨⟨0, [], []⟩⟩

/-- Data-model invariants of a level (spec, section 3): arrays sized `n`,
neighbor ids in range and never the vertex itself. -/
def ValidLevel (lv : Level) : Prop :=
  lv.adj.length = lv.n ∧ lv.A.length = lv.n ∧
  ∀ i < lv.n, ∀ l ∈ row lv.adj i, l.id < lv.n ∧ l.id ≠ i

instance : DecidablePred ValidLevel := fun lv => by
  unfold ValidLevel; infer_instance

/-- Ordering of `Link` records by neighbor id (modelled from the spec,
section 4.1 step 6b: "sort scratch by neighbor id"; `Link::operator<`
lives in the unstaged `hierarchy.h`). -/
def linkLE (a b : Link) : Prop := a.id ≤ b.id

instance : DecidableRel linkLE := fun a b => inferInstanceAs (Decidable (a.id ≤ b.id))

instance : IsTotal Link linkLE := ⟨fun a b => Nat.le_total a.id b.id⟩

instance : IsTrans Link linkLE := ⟨fun _ _ _ hab hbc => Nat.le_trans hab hbc⟩

/-- Sorting a scratch buffer by neighbor id (hierarchy.cpp:188). Which
order equal ids end up in does not affect the merged output. -/
def sortLinks (ls : List Link) : List Link := ls.insertionSort linkLE

/-- The emit loop of hierarchy.cpp:189-200 on the part of the sorted
scratch list that is not a self-reference: merge runs of equal neighbor
ids by summing their weights. -/
def mergeGo : Link → List Link → List Link
  | a, [] => [a]
  | a, b :: rest =>
    if a.id = b.id then mergeGo ⟨a.id, a.weight + b.weight⟩ rest
    else a :: mergeGo b rest

/-- One coarse adjacency row (hierarchy.cpp:174-204): sort the scratch
buffer, drop self-references to `c`, merge duplicate ids by weight
summation. The C++ skips `link.id == i` inside the single merging pass;
since equal ids are adjacent after sorting, that equals filtering first. -/
def coarseRow (c : ℕ) (scratch : List Link) : List Link :=
  match (sortLinks scratch).filter (fun l => decide (l.id ≠ c)) with
  | [] => []
  | a :: rest => mergeGo a rest

/-- Scratch buffer for one coarse vertex (hierarchy.cpp:181-187): the
parents' fine links projected through `to_lower`, skipping an `INVALID`
parent slot. -/
def scratchOf (adj : List (List Link)) (toLow : ℕ → ℕ) (parents : ℕ × ℕ) : List Link :=
  (if parents.1 = INVALID then [] else (row adj parents.1).map (fun l => ⟨toLow l.id, l.weight⟩)) ++
  (if parents.2 = INVALID then [] else (row adj parents.2).map (fun l => ⟨toLow l.id, l.weight⟩))

/-- Outputs of one downsampling step that the verified claims mention. -/
structure DownsampleResult where
  vertexCount : ℕ
  collapsed : List Entry
  unmatched : List ℕ
  toUpper : List (ℕ × ℕ)
  A_p : List ℚ
  adj_p : List (List Link)
deriving DecidableEq

/-- Coarse index of a fine vertex (the `to_lower` array written at
hierarchy.cpp:103 and 122: each fine vertex occurs in exactly one
`to_upper` pair, at the index written there). -/
def toLowerOf (toUp : List (ℕ × ℕ)) (v : ℕ) : ℕ :=
  (toUp.findIdx? (fun pq => pq.1 == v || pq.2 == v)).getD 0

/-- One graph downsampling step (hierarchy.cpp:24-208) on the data the
claims reach, for a given sorted entry list `es`: greedy matching, coarse
area synthesis (`A'[new] = a_i + a_k` at hierarchy.cpp:101, verbatim copy
for promoted unmatched vertices at hierarchy.cpp:120, appended in
ascending fine order as on the deterministic path), `to_upper`, and the
coarse adjacency. `vertexCount` is `V.cols() - nCollapsed`
(hierarchy.cpp:78). -/
def downsampleLevel (lv : Level) (es : List Entry) : DownsampleResult :=
  let m := greedyMatch es
  let unmatched := (List.range lv.n).filter (fun v => decide (v ∉ m.2))
  let toUp := m.1.map (fun e => (e.i, e.j)) ++ unmatched.map (fun v => (v, INVALID))
  let A_p := m.1.map (fun e => lv.A.getD e.i 0 + lv.A.getD e.j 0) ++
    unmatched.map (fun v => lv.A.getD v 0)
  let adj_p := (List.range (m.1.length + unmatched.length)).map
    (fun c => coarseRow c (scratchOf lv.adj (toLowerOf toUp) (toUp.getD c (INVALID, INVALID))))
  ⟨lv.n - m.1.length, m.1, unmatched, toUp, A_p, adj_p⟩

/-- The coarse level assembled from a downsampling step's outputs. -/
def coarsen (r : DownsampleResult) : Level :=
  ⟨r.vertexCount, r.adj_p, r.A_p⟩

/-- Total surface area of a level. -/
def totalArea (lv : Level) : ℚ := lv.A.sum

/-- Relation "one downsampling step of the build loop (hierarchy.cpp:436-438)
takes `lv` to `lv'`": some order `es` of the directed adjacency pairs
realises it. -/
def Coarsens (lv lv' : Level) : Prop :=
  ∃ es, es.Perm (allPairs lv.adj) ∧ lv' = coarsen (downsampleLevel lv es)

/-! ## Greedy matching invariants -/

/-- Fine endpoints of a list of accepted entries, in order. -/
def endpointsOf (es : List Entry) : List ℕ :=
  es.flatMap (fun e => [e.i, e.j])

theorem endpointsOf_length (es : List Entry) :
    (endpointsOf es).length = 2 * es.length := by
  induction es with
  | nil => rfl
  | cons e es ih =>
    unfold endpointsOf at ih ⊢
    simp [ih]
    omega

theorem endpointsOf_append (xs ys : List Entry) :
    endpointsOf (xs ++ ys) = endpointsOf xs ++ endpointsOf ys := by
  unfold endpointsOf
  simp

/-- The merged-vertex list stays a permutation of the accepted entries'
endpoints. -/
theorem greedy_endpoints (es : List Entry) : ∀ acc ms,
    ms.Perm (endpointsOf acc) →
    (es.foldl greedyStep (acc, ms)).2.Perm (endpointsOf (es.foldl greedyStep (acc, ms)).1) := by
  induction es with
  | nil => intro acc ms h; exact h
  | cons e es ih =>
    intro acc ms h
    rw [List.foldl_cons]
    unfold greedyStep
    by_cases hg : e.i ∈ ms ∨ e.j ∈ ms
    · simp only [hg, if_pos]
      exact ih acc ms h
    · simp only [hg, if_neg, not_false_iff]
      apply ih
      have h1 : (e.i :: e.j :: ms).Perm (e.i :: e.j :: endpointsOf acc) := (h.cons e.j).cons e.i
      refine h1.trans ?_
      rw [endpointsOf_append]
      have : endpointsOf [e] = [e.i, e.j] := rfl
      rw [this]
      have := @List.perm_append_comm _ [e.i, e.j] (endpointsOf acc)
      simpa using this

theorem greedy_nodup (es : List Entry) (hes : ∀ e ∈ es, e.i ≠ e.j) : ∀ acc ms,
    ms.Nodup → (es.foldl greedyStep (acc, ms)).2.Nodup := by
  induction es with
  | nil => intro acc ms h; exact h
  | cons e es ih =>
    intro acc ms h
    rw [List.foldl_cons]
    unfold greedyStep
    by_cases hg : e.i ∈ ms ∨ e.j ∈ ms
    · simp only [hg, if_pos]
      exact ih (fun e he => hes e (by simp [he])) acc ms h
    · simp only [hg, if_neg, not_false_iff]
      push_neg at hg
      apply ih (fun e he => hes e (by simp [he]))
      refine List.nodup_cons.2 ⟨?_, List.nodup_cons.2 ⟨hg.2, h⟩⟩
      simp
      exact ⟨hes e (by simp), hg.1⟩

theorem greedy_bound (es : List Entry) (n : ℕ)
    (hes : ∀ e ∈ es, e.i < n ∧ e.j < n) : ∀ acc ms,
    (∀ v ∈ ms, v < n) → ∀ v ∈ (es.foldl greedyStep (acc, ms)).2, v < n := by
  induction es with
  | nil => intro acc ms h; exact h
  | cons e es ih =>
    intro acc ms h
    rw [List.foldl_cons]
    unfold greedyStep
    by_cases hg : e.i ∈ ms ∨ e.j ∈ ms
    · simp only [hg, if_pos]
      exact ih (fun e he => hes e (by simp [he])) acc ms h
    · simp only [hg, if_neg, not_false_iff]
      apply ih (fun e he => hes e (by simp [he]))
      intro v hv
      simp at hv
      rcases hv with rfl | rfl | hv
      · exact (hes e (by simp)).1
      · exact (hes e (by simp)).2
      · exact h v hv

theorem greedy_acc_prefix (es : List Entry) : ∀ acc ms,
    ∃ t, (es.foldl greedyStep (acc, ms)).1 = acc ++ t := by
  induction es with
  | nil => intro acc ms; exact ⟨[], by simp⟩
  | cons e es ih =>
    intro acc ms
    rw [List.foldl_cons]
    unfold greedyStep
    by_cases hg : e.i ∈ ms ∨ e.j ∈ ms
    · simp only [hg, if_pos]
      exact ih acc ms
    · simp only [hg, if_neg, not_false_iff]
      rcases ih (acc ++ [e]) (e.i :: e.j :: ms) with ⟨t, ht⟩
      refine ⟨[e] ++ t, ?_⟩
      show (List.foldl greedyStep (acc ++ [e], e.i :: e.j :: ms) es).1 = acc ++ ([e] ++ t)
      rw [← List.append_assoc]
      exact ht

theorem greedyMatch_matched_perm (es : List Entry) :
    (greedyMatch es).2.Perm (endpointsOf (greedyMatch es).1) :=
  greedy_endpoints es [] [] (by simp [endpointsOf])

theorem greedyMatch_cons (e : Entry) (rest : List Entry) :
    greedyMatch (e :: rest) = rest.foldl greedyStep ([e], [e.i, e.j]) := by
  unfold greedyMatch
  rw [List.foldl_cons]
  unfold greedyStep
  simp

theorem greedyMatch_head (e : Entry) (rest : List Entry) :
    (greedyMatch (e :: rest)).1.head? = some e := by
  rw [greedyMatch_cons]
  rcases greedy_acc_prefix rest [e] [e.i, e.j] with ⟨t, ht⟩
  rw [ht]
  rfl

/-- Membership in the directed adjacency pair list. -/
theorem mem_allPairs {adj : List (List Link)} {e : Entry} :
    e ∈ allPairs adj ↔ ∃ i < adj.length, ∃ l ∈ row adj i, e = ⟨i, l.id⟩ := by
  unfold allPairs
  simp only [List.mem_flatMap, List.mem_range, List.mem_map]
  constructor
  · rintro ⟨i, hi, l, hl, rfl⟩
    exact ⟨i, hi, l, hl, rfl⟩
  · rintro ⟨i, hi, l, hl, rfl⟩
    exact ⟨i, hi, l, hl, rfl⟩

theorem allPairs_entry_facts {lv : Level} (hv : ValidLevel lv) {e : Entry}
    (he : e ∈ allPairs lv.adj) : e.i < lv.n ∧ e.j < lv.n ∧ e.i ≠ e.j := by
  rcases mem_allPairs.1 he with ⟨i, hi, l, hl, rfl⟩
  rcases hv with ⟨hlen, _, hids⟩
  rcases hids i (hlen ▸ hi) l hl with ⟨h1, h2⟩
  exact ⟨hlen ▸ hi, h1, fun hEq => h2 hEq.symm⟩

/-- Twice the number of accepted pairs is at most the vertex count: the
accepted entries' endpoints are pairwise distinct in-range vertices. -/
theorem two_mul_collapsed_le {lv : Level} {es : List Entry} (hv : ValidLevel lv)
    (hperm : es.Perm (allPairs lv.adj)) :
    2 * (greedyMatch es).1.length ≤ lv.n := by
  have hfacts : ∀ e ∈ es, e.i < lv.n ∧ e.j < lv.n ∧ e.i ≠ e.j :=
    fun e he => allPairs_entry_facts hv (hperm.subset he)
  have hmsperm := greedyMatch_matched_perm es
  have hnd : (greedyMatch es).2.Nodup :=
    greedy_nodup es (fun e he => (hfacts e he).2.2) [] [] (by simp)
  have hbd : ∀ v ∈ (greedyMatch es).2, v < lv.n :=
    greedy_bound es lv.n (fun e he => ⟨(hfacts e he).1, (hfacts e he).2.1⟩) [] [] (by simp)
  have hsub : (greedyMatch es).2.Subperm (List.range lv.n) :=
    List.subperm_of_subset hnd (fun v hv' => List.mem_range.2 (hbd v hv'))
  have hlen := hsub.length_le
  rw [hmsperm.length_eq, endpointsOf_length, List.length_range] at hlen
  exact hlen

/-! ## Vertex-count behaviour of one downsampling step (C2, C9) -/

theorem downsample_vertexCount (lv : Level) (es : List Entry) :
    (downsampleLevel lv es).vertexCount = lv.n - (greedyMatch es).1.length := rfl

theorem downsample_eq_of_pairs_nil {lv : Level} {es : List Entry}
    (hperm : es.Perm (allPairs lv.adj)) (hnil : allPairs lv.adj = []) :
    (downsampleLevel lv es).vertexCount = lv.n := by
  have hes : es = [] := List.perm_nil.1 (hnil ▸ hperm)
  subst hes
  rw [downsample_vertexCount]
  rfl

theorem downsample_lt_of_pairs_ne {lv : Level} {es : List Entry} (hv : ValidLevel lv)
    (hperm : es.Perm (allPairs lv.adj)) (hne : allPairs lv.adj ≠ []) :
    (downsampleLevel lv es).vertexCount < lv.n := by
  have hesne : es ≠ [] := by
    intro h
    subst h
    exact hne (List.perm_nil.1 hperm.symm)
  rcases List.exists_cons_of_ne_nil hesne with ⟨e, rest, rfl⟩
  have hhead := greedyMatch_head e rest
  have hknz : 0 < (greedyMatch (e :: rest)).1.length := by
    cases hacc : (greedyMatch (e :: rest)).1 with
    | nil => rw [hacc] at hhead; exact absurd hhead (by simp)
    | cons a t => simp [hacc]
  have hk2 := two_mul_collapsed_le hv hperm
  rw [downsample_vertexCount]
  exact Nat.sub_lt (by omega) hknz

/-- C2 (amended): one downsampling step never increases the vertex count,
and strictly decreases it whenever the fine level has at least one
adjacency link; with an empty adjacency every vertex is promoted unmatched
and the count stays `n_l` even when `n_l > 1`. -/
theorem downsample_count (lv : Level) (es : List Entry) (hv : ValidLevel lv)
    (hperm : es.Perm (allPairs lv.adj)) :
    (downsampleLevel lv es).vertexCount ≤ lv.n ∧
    (allPairs lv.adj ≠ [] → (downsampleLevel lv es).vertexCount < lv.n) := by
  constructor
  · rw [downsample_vertexCount]
    exact Nat.sub_le _ _
  · exact downsample_lt_of_pairs_ne hv hperm

/-- Witness for C2 (amended) on the connected 2-vertex level. -/
theorem downsample_count_witness :
    (downsampleLevel ⟨2, [[⟨1,1⟩],[⟨0,1⟩]], [1,1]⟩ [⟨0,1⟩,⟨1,0⟩]).vertexCount ≤ 2 ∧
    (allPairs [[⟨1,1⟩],[⟨0,1⟩]] ≠ [] →
      (downsampleLevel ⟨2, [[⟨1,1⟩],[⟨0,1⟩]], [1,1]⟩ [⟨0,1⟩,⟨1,0⟩]).vertexCount < 2) :=
  downsample_count ⟨2, [[⟨1,1⟩],[⟨0,1⟩]], [1,1]⟩ [⟨0,1⟩,⟨1,0⟩] (by decide) (by decide)

/-- Counterexample to C2 as stated: two isolated vertices (empty
adjacency) have `n_l = 2 > 1`, yet the step keeps both vertices. This is
the spec's own scenario c. -/
theorem downsample_pair_unchanged :
    (downsampleLevel ⟨2, [[], []], [1, 1]⟩ []).vertexCount = 2 ∧
    allPairs ([[], []] : List (List Link)) = [] ∧ (1 : ℕ) < 2 := by
  refine ⟨by decide, by decide, by decide⟩

/-- C9: a downsampling step strictly reduces the vertex count iff the fine
level has at least one adjacency link; moreover the first (highest-scoring)
entry of the sorted list is always accepted by the greedy scan. -/
theorem downsample_strict_iff (lv : Level) (es : List Entry) (hv : ValidLevel lv)
    (hperm : es.Perm (allPairs lv.adj)) :
    ((downsampleLevel lv es).vertexCount < lv.n ↔ allPairs lv.adj ≠ []) ∧
    (∀ e rest, es = e :: rest → (downsampleLevel lv es).collapsed.head? = some e) := by
  constructor
  · constructor
    · intro hlt hnil
      rw [downsample_eq_of_pairs_nil hperm hnil] at hlt
      exact absurd hlt (lt_irrefl _)
    · exact downsample_lt_of_pairs_ne hv hperm
  · rintro e rest rfl
    exact greedyMatch_head e rest

/-- Witness for C9 on the connected 2-vertex level. -/
theorem downsample_strict_iff_witness :
    (((downsampleLevel ⟨2, [[⟨1,1⟩],[⟨0,1⟩]], [1,1]⟩ [⟨0,1⟩,⟨1,0⟩]).vertexCount < 2 ↔
      allPairs [[⟨1,1⟩],[⟨0,1⟩]] ≠ []) ∧
    (∀ e rest, ([⟨0,1⟩,⟨1,0⟩] : List Entry) = e :: rest →
      (downsampleLevel ⟨2, [[⟨1,1⟩],[⟨0,1⟩]], [1,1]⟩ [⟨0,1⟩,⟨1,0⟩]).collapsed.head? = some e)) :=
  downsample_strict_iff ⟨2, [[⟨1,1⟩],[⟨0,1⟩]], [1,1]⟩ [⟨0,1⟩,⟨1,0⟩] (by decide) (by decide)

/-! ## Surface-area conservation (C7) -/

theorem endpointsOf_map_sum (f : ℕ → ℚ) (es : List Entry) :
    ((endpointsOf es).map f).sum = (es.map (fun e => f e.i + f e.j)).sum := by
  induction es with
  | nil => rfl
  | cons e es ih =>
    unfold endpointsOf at ih ⊢
    simp only [List.flatMap_cons, List.map_append, List.sum_append, List.map_cons,
      List.sum_cons, List.map_nil, List.sum_nil, add_zero]
    rw [ih]

theorem range_map_getD (l : List ℚ) :
    (List.range l.length).map (fun v => l.getD v 0) = l := by
  apply List.ext_getElem
  · simp
  · intro i h1 h2
    simp only [List.getElem_map, List.getElem_range]
    rw [List.getD_eq_getElem l 0 h2]

/-- The matched and promoted vertices together are a permutation of all
fine vertices. -/
theorem matched_unmatched_perm {lv : Level} {es : List Entry} (hv : ValidLevel lv)
    (hperm : es.Perm (allPairs lv.adj)) :
    ((greedyMatch es).2 ++
      (List.range lv.n).filter (fun v => decide (v ∉ (greedyMatch es).2))).Perm
      (List.range lv.n) := by
  have hfacts : ∀ e ∈ es, e.i < lv.n ∧ e.j < lv.n ∧ e.i ≠ e.j :=
    fun e he => allPairs_entry_facts hv (hperm.subset he)
  have hnd : (greedyMatch es).2.Nodup :=
    greedy_nodup es (fun e he => (hfacts e he).2.2) [] [] (by simp)
  have hbd : ∀ v ∈ (greedyMatch es).2, v < lv.n :=
    greedy_bound es lv.n (fun e he => ⟨(hfacts e he).1, (hfacts e he).2.1⟩) [] [] (by simp)
  have hA : (greedyMatch es).2.Perm
      ((List.range lv.n).filter (fun v => decide (v ∈ (greedyMatch es).2))) := by
    refine (List.perm_ext_iff_of_nodup hnd ((List.nodup_range lv.n).filter _)).2 ?_
    intro v
    simp only [List.mem_filter, List.mem_range, decide_eq_true_eq]
    exact ⟨fun h => ⟨hbd v h, h⟩, fun h => h.2⟩
  have hB : ((List.range lv.n).filter (fun v => decide (v ∈ (greedyMatch es).2)) ++
      (List.range lv.n).filter (fun v => decide (v ∉ (greedyMatch es).2))).Perm
      (List.range lv.n) := by
    have := List.filter_append_perm (fun v => decide (v ∈ (greedyMatch es).2)) (List.range lv.n)
    have hfun : (fun v => !decide (v ∈ (greedyMatch es).2)) =
        (fun v => decide (v ∉ (greedyMatch es).2)) := by
      funext v
      simp [decide_not]
    rw [hfun] at this
    exact this
  exact (hA.append_right _).trans hB

/-- One downsampling step conserves the total surface area exactly: the
coarse area array sums to the fine one. -/
theorem downsample_area_sum {lv : Level} {es : List Entry} (hv : ValidLevel lv)
    (hperm : es.Perm (allPairs lv.adj)) :
    (downsampleLevel lv es).A_p.sum = lv.A.sum := by
  have hA_p : (downsampleLevel lv es).A_p =
      (greedyMatch es).1.map (fun e => lv.A.getD e.i 0 + lv.A.getD e.j 0) ++
      ((List.range lv.n).filter (fun v => decide (v ∉ (greedyMatch es).2))).map
        (fun v => lv.A.getD v 0) := rfl
  rw [hA_p, List.sum_append]
  have h1 : ((greedyMatch es).1.map (fun e => lv.A.getD e.i 0 + lv.A.getD e.j 0)).sum =
      ((greedyMatch es).2.map (fun v => lv.A.getD v 0)).sum :=
    calc ((greedyMatch es).1.map (fun e => lv.A.getD e.i 0 + lv.A.getD e.j 0)).sum
        = ((endpointsOf (greedyMatch es).1).map (fun v => lv.A.getD v 0)).sum :=
          (endpointsOf_map_sum (fun v => lv.A.getD v 0) (greedyMatch es).1).symm
      _ = ((greedyMatch es).2.map (fun v => lv.A.getD v 0)).sum :=
          (((greedyMatch_matched_perm es).map _).sum_eq).symm
  rw [h1, ← List.sum_append, ← List.map_append]
  have h2 := ((matched_unmatched_perm hv hperm).map (fun v => lv.A.getD v 0)).sum_eq
  rw [h2]
  rcases hv with ⟨-, hAlen, -⟩
  rw [← hAlen, range_map_getD]

theorem coarsens_totalArea {lv lv' : Level} (hv : ValidLevel lv) (h : Coarsens lv lv') :
    totalArea lv' = totalArea lv := by
  rcases h with ⟨es, hperm, rfl⟩
  exact downsample_area_sum hv hperm

/-- C7: total surface area is conserved across the levels of a built
hierarchy (exact arithmetic): each matched pair's coarse area is the sum
of its parents' areas, each promoted vertex's area is copied verbatim, so
every level of a chain of downsampling steps sums to the finest level. -/
theorem hierarchy_area_conserved (ls : List Level) (hchain : List.Chain' Coarsens ls)
    (hvalid : ∀ lv ∈ ls, ValidLevel lv) :
    ∀ lv ∈ ls, totalArea lv = totalArea ls.headI := by
  induction ls with
  | nil => intro lv hlv; simp at hlv
  | cons a rest ih =>
    intro lv hlv
    rcases List.mem_cons.1 hlv with rfl | hlv'
    · rfl
    · cases rest with
      | nil => simp at hlv'
      | cons b rest' =>
        have h1 := List.chain'_cons.1 hchain
        have h2 := ih h1.2 (fun x hx => hvalid x (by simp [hx])) lv hlv'
        rw [h2]
        show totalArea b = totalArea a
        exact coarsens_totalArea (hvalid a (by simp)) h1.1

/-- Witness for C7 on a two-level hierarchy built from the connected
2-vertex level. -/
theorem hierarchy_area_conserved_witness :
    totalArea (coarsen (downsampleLevel ⟨2, [[⟨1,1⟩],[⟨0,1⟩]], [1,1]⟩ [⟨0,1⟩,⟨1,0⟩])) =
      totalArea (⟨2, [[⟨1,1⟩],[⟨0,1⟩]], [1,1]⟩ : Level) := by
  have h := hierarchy_area_conserved
    [⟨2, [[⟨1,1⟩],[⟨0,1⟩]], [1,1]⟩,
      coarsen (downsampleLevel ⟨2, [[⟨1,1⟩],[⟨0,1⟩]], [1,1]⟩ [⟨0,1⟩,⟨1,0⟩])]
    (List.chain'_cons.2 ⟨⟨[⟨0,1⟩,⟨1,0⟩], by decide, rfl⟩, List.chain'_singleton _⟩)
    (by
      intro lv hlv
      simp at hlv
      rcases hlv with rfl | rfl
      · decide
      · decide)
    (coarsen (downsampleLevel ⟨2, [[⟨1,1⟩],[⟨0,1⟩]], [1,1]⟩ [⟨0,1⟩,⟨1,0⟩]))
    (by simp)
  exact h

/-! ## Coarse adjacency rows (C6) -/

/-- Total weight that a link list carries toward neighbor id `d`. -/
def sumAt (d : ℕ) (ls : List Link) : ℚ :=
  ((ls.filter (fun l => decide (l.id = d))).map Link.weight).sum

theorem sumAt_cons (d : ℕ) (l : Link) (ls : List Link) :
    sumAt d (l :: ls) = (if l.id = d then l.weight else 0) + sumAt d ls := by
  unfold sumAt
  by_cases h : l.id = d <;> simp [h]

theorem sumAt_mk_cons (d i : ℕ) (w : ℚ) (ls : List Link) :
    sumAt d (⟨i, w⟩ :: ls) = (if i = d then w else 0) + sumAt d ls :=
  sumAt_cons d ⟨i, w⟩ ls

theorem mergeGo_sumAt (d : ℕ) : ∀ (xs : List Link) (a : Link),
    sumAt d (mergeGo a xs) = sumAt d (a :: xs) := by
  intro xs
  induction xs with
  | nil => intro a; rfl
  | cons b rest ih =>
    intro a
    show sumAt d (mergeGo a (b :: rest)) = _
    unfold mergeGo
    rcases Decidable.em (a.id = b.id) with h | h
    · rw [if_pos h, ih ⟨a.id, a.weight + b.weight⟩, sumAt_mk_cons, sumAt_cons, sumAt_cons]
      rcases Decidable.em (a.id = d) with hd | hd
      · rw [if_pos hd, if_pos hd, if_pos (h ▸ hd)]
        ring
      · rw [if_neg hd, if_neg hd, if_neg (h ▸ hd)]
        ring
    · rw [if_neg h, sumAt_cons, ih b, ← sumAt_cons]

theorem mergeGo_mem_id (d : ℕ) : ∀ (xs : List Link) (a : Link),
    (∃ l ∈ mergeGo a xs, l.id = d) ↔ d = a.id ∨ ∃ l ∈ xs, l.id = d := by
  intro xs
  induction xs with
  | nil =>
    intro a
    show (∃ l ∈ [a], l.id = d) ↔ _
    simp [eq_comm]
  | cons b rest ih =>
    intro a
    show (∃ l ∈ mergeGo a (b :: rest), l.id = d) ↔ _
    unfold mergeGo
    rcases Decidable.em (a.id = b.id) with h | h
    · rw [if_pos h, ih ⟨a.id, a.weight + b.weight⟩]
      show d = a.id ∨ (∃ l ∈ rest, l.id = d) ↔ d = a.id ∨ ∃ l ∈ b :: rest, l.id = d
      constructor
      · rintro (hda | ⟨l, hl, hid⟩)
        · exact Or.inl hda
        · exact Or.inr ⟨l, List.mem_cons_of_mem b hl, hid⟩
      · rintro (hda | ⟨l, hl, hid⟩)
        · exact Or.inl hda
        · rcases List.mem_cons.1 hl with rfl | hl'
          · exact Or.inl ((h.trans hid).symm)
          · exact Or.inr ⟨l, hl', hid⟩
    · rw [if_neg h]
      constructor
      · rintro ⟨l, hl, hid⟩
        rcases List.mem_cons.1 hl with rfl | hl'
        · exact Or.inl hid.symm
        · rcases (ih b).1 ⟨l, hl', hid⟩ with hdb | ⟨l', hm, hid'⟩
          · exact Or.inr ⟨b, List.mem_cons_self b rest, hdb.symm⟩
          · exact Or.inr ⟨l', List.mem_cons_of_mem b hm, hid'⟩
      · rintro (hda | ⟨l, hl, hid⟩)
        · exact ⟨a, List.mem_cons_self a _, hda.symm⟩
        · rcases List.mem_cons.1 hl with rfl | hl'
          · rcases (ih l).2 (Or.inl hid.symm) with ⟨l', hm, hid'⟩
            exact ⟨l', List.mem_cons_of_mem a hm, hid'⟩
          · rcases (ih b).2 (Or.inr ⟨l, hl', hid⟩) with ⟨l', hm, hid'⟩
            exact ⟨l', List.mem_cons_of_mem a hm, hid'⟩

theorem mergeGo_pairwise : ∀ (xs : List Link) (a : Link),
    (a :: xs).Pairwise linkLE → (mergeGo a xs).Pairwise (fun x y => x.id < y.id) := by
  intro xs
  induction xs with
  | nil =>
    intro a _
    show ([a] : List Link).Pairwise _
    simp
  | cons b rest ih =>
    intro a hp
    show (mergeGo a (b :: rest)).Pairwise _
    unfold mergeGo
    rcases List.pairwise_cons.1 hp with ⟨ha, hbrest⟩
    rcases List.pairwise_cons.1 hbrest with ⟨hb, hrest⟩
    rcases Decidable.em (a.id = b.id) with h | h
    · rw [if_pos h]
      apply ih
      refine List.pairwise_cons.2 ⟨?_, hrest⟩
      intro l hl
      show a.id ≤ l.id
      rw [h]
      exact hb l hl
    · rw [if_neg h]
      refine List.pairwise_cons.2 ⟨?_, ih b hbrest⟩
      intro y hy
      have halt : a.id < b.id := lt_of_le_of_ne (ha b (List.mem_cons_self b rest)) h
      rcases (mergeGo_mem_id y.id rest b).1 ⟨y, hy, rfl⟩ with hyb | ⟨l, hl, hid⟩
      · show a.id < y.id
        rw [hyb]
        exact halt
      · show a.id < y.id
        rw [← hid]
        exact lt_of_lt_of_le halt (hb l hl)

theorem mergeGo_ids_nodup (xs : List Link) (a : Link)
    (hp : (a :: xs).Pairwise linkLE) : ((mergeGo a xs).map Link.id).Nodup :=
  List.pairwise_map.2 ((mergeGo_pairwise xs a hp).imp fun hlt => Nat.ne_of_lt hlt)

theorem sortLinks_perm (ls : List Link) : (sortLinks ls).Perm ls :=
  List.perm_insertionSort _ _

theorem sortLinks_sorted (ls : List Link) : (sortLinks ls).Pairwise linkLE :=
  List.sorted_insertionSort _ _

theorem sumAt_perm {ls ls' : List Link} (h : ls.Perm ls') (d : ℕ) :
    sumAt d ls = sumAt d ls' := by
  unfold sumAt
  exact ((h.filter _).map _).sum_eq

theorem sumAt_filter_ne {c d : ℕ} (hdc : d ≠ c) (ls : List Link) :
    sumAt d (ls.filter (fun l => decide (l.id ≠ c))) = sumAt d ls := by
  unfold sumAt
  rw [List.filter_filter]
  have heq : List.filter (fun a => decide (a.id = d) && decide (a.id ≠ c)) ls =
      List.filter (fun l => decide (l.id = d)) ls := by
    apply List.filter_congr
    intro l _
    rcases Decidable.em (l.id = d) with h | h
    · simp [h, hdc]
    · simp [h]
  rw [heq]

theorem exists_filter_ne {c d : ℕ} (hdc : d ≠ c) (ls : List Link) :
    (∃ l ∈ ls.filter (fun l => decide (l.id ≠ c)), l.id = d) ↔ ∃ l ∈ ls, l.id = d := by
  simp only [List.mem_filter, decide_eq_true_eq]
  constructor
  · rintro ⟨l, ⟨hl, _⟩, hid⟩
    exact ⟨l, hl, hid⟩
  · rintro ⟨l, hl, hid⟩
    refine ⟨l, ⟨hl, ?_⟩, hid⟩
    rw [hid]
    exact hdc

theorem exists_perm_id {ls ls' : List Link} (h : ls.Perm ls') (d : ℕ) :
    (∃ l ∈ ls, l.id = d) ↔ ∃ l ∈ ls', l.id = d := by
  constructor <;> rintro ⟨l, hl, hid⟩
  · exact ⟨l, h.subset hl, hid⟩
  · exact ⟨l, h.symm.subset hl, hid⟩

theorem coarseRow_no_self (c : ℕ) (scratch : List Link) :
    ∀ l ∈ coarseRow c scratch, l.id ≠ c := by
  unfold coarseRow
  cases hf : (sortLinks scratch).filter (fun l => decide (l.id ≠ c)) with
  | nil => simp
  | cons a rest =>
    intro l hl
    have hsub : ∀ x ∈ a :: rest, x.id ≠ c := by
      intro x hx
      have : x ∈ (sortLinks scratch).filter (fun l => decide (l.id ≠ c)) := hf ▸ hx
      simpa using (List.mem_filter.1 this).2
    rcases (mergeGo_mem_id l.id rest a).1 ⟨l, hl, rfl⟩ with hla | ⟨l', hl', hid⟩
    · rw [hla]
      exact hsub a (List.mem_cons_self a rest)
    · rw [← hid]
      exact hsub l' (List.mem_cons_of_mem a hl')

theorem coarseRow_ids_nodup (c : ℕ) (scratch : List Link) :
    ((coarseRow c scratch).map Link.id).Nodup := by
  unfold coarseRow
  cases hf : (sortLinks scratch).filter (fun l => decide (l.id ≠ c)) with
  | nil => simp
  | cons a rest =>
    apply mergeGo_ids_nodup
    have := (sortLinks_sorted scratch).filter (fun l => decide (l.id ≠ c))
    rw [hf] at this
    exact this

theorem coarseRow_sumAt {c d : ℕ} (hdc : d ≠ c) (scratch : List Link) :
    sumAt d (coarseRow c scratch) = sumAt d scratch := by
  have hchain : sumAt d ((sortLinks scratch).filter (fun l => decide (l.id ≠ c))) =
      sumAt d scratch := by
    rw [sumAt_filter_ne hdc]
    exact sumAt_perm (sortLinks_perm scratch) d
  unfold coarseRow
  cases hf : (sortLinks scratch).filter (fun l => decide (l.id ≠ c)) with
  | nil =>
    rw [hf] at hchain
    rw [← hchain]
  | cons a rest =>
    rw [hf] at hchain
    rw [mergeGo_sumAt, hchain]

theorem coarseRow_mem {c d : ℕ} (hdc : d ≠ c) (scratch : List Link) :
    (∃ l ∈ coarseRow c scratch, l.id = d) ↔ ∃ l ∈ scratch, l.id = d := by
  have hchain : (∃ l ∈ (sortLinks scratch).filter (fun l => decide (l.id ≠ c)), l.id = d) ↔
      ∃ l ∈ scratch, l.id = d :=
    (exists_filter_ne hdc (sortLinks scratch)).trans (exists_perm_id (sortLinks_perm scratch) d)
  unfold coarseRow
  cases hf : (sortLinks scratch).filter (fun l => decide (l.id ≠ c)) with
  | nil =>
    rw [hf] at hchain
    rw [← hchain]
  | cons a rest =>
    rw [hf] at hchain
    rw [mergeGo_mem_id, ← hchain]
    constructor
    · rintro (hda | ⟨l, hl, hid⟩)
      · exact ⟨a, List.mem_cons_self a rest, hda.symm⟩
      · exact ⟨l, List.mem_cons_of_mem a hl, hid⟩
    · rintro ⟨l, hl, hid⟩
      rcases List.mem_cons.1 hl with rfl | hl'
      · exact Or.inl hid.symm
      · exact Or.inr ⟨l, hl', hid⟩

theorem row_map_range (f : ℕ → List Link) (k c : ℕ) :
    row ((List.range k).map f) c = if c < k then f c else [] := by
  unfold row
  rw [List.getD_eq_getElem?_getD, List.getElem?_map]
  rcases Decidable.em (c < k) with h | h
  · rw [List.getElem?_range h]
    simp [h]
  · rw [List.getElem?_eq_none (by simpa using Nat.le_of_not_lt h)]
    simp [h]

theorem downsample_toUpper_length (lv : Level) (es : List Entry) :
    (downsampleLevel lv es).toUpper.length =
      (greedyMatch es).1.length +
      ((List.range lv.n).filter (fun v => decide (v ∉ (greedyMatch es).2))).length := by
  show (List.map _ (greedyMatch es).1 ++ List.map _ _).length = _
  simp

/-- C6: every coarse adjacency row produced by a downsampling step has no
self-loop and no duplicate neighbor id, and carries, toward every other
coarse id `d`, exactly the total weight of the parents' fine links
projected through `toLower` (parallel edges merged by weight summation),
reaching exactly the projected neighbor ids. -/
theorem downsample_adjacency (lv : Level) (es : List Entry) (c : ℕ) :
    (∀ l ∈ row (downsampleLevel lv es).adj_p c, l.id ≠ c) ∧
    ((row (downsampleLevel lv es).adj_p c).map Link.id).Nodup ∧
    (∀ d, d ≠ c →
      (sumAt d (row (downsampleLevel lv es).adj_p c) =
        sumAt d (scratchOf lv.adj (toLowerOf (downsampleLevel lv es).toUpper)
          ((downsampleLevel lv es).toUpper.getD c (INVALID, INVALID)))) ∧
      ((∃ l ∈ row (downsampleLevel lv es).adj_p c, l.id = d) ↔
        ∃ l ∈ scratchOf lv.adj (toLowerOf (downsampleLevel lv es).toUpper)
          ((downsampleLevel lv es).toUpper.getD c (INVALID, INVALID)), l.id = d)) := by
  have hrow : row (downsampleLevel lv es).adj_p c =
      if c < (greedyMatch es).1.length +
          ((List.range lv.n).filter (fun v => decide (v ∉ (greedyMatch es).2))).length then
        coarseRow c (scratchOf lv.adj (toLowerOf (downsampleLevel lv es).toUpper)
          ((downsampleLevel lv es).toUpper.getD c (INVALID, INVALID)))
      else [] := by
    exact row_map_range _ _ c
  rcases Decidable.em (c < (greedyMatch es).1.length +
      ((List.range lv.n).filter (fun v => decide (v ∉ (greedyMatch es).2))).length) with h | h
  · rw [if_pos h] at hrow
    rw [hrow]
    exact ⟨coarseRow_no_self c _, coarseRow_ids_nodup c _,
      fun d hdc => ⟨coarseRow_sumAt hdc _, coarseRow_mem hdc _⟩⟩
  · rw [if_neg h] at hrow
    have hparents : (downsampleLevel lv es).toUpper.getD c (INVALID, INVALID) =
        (INVALID, INVALID) := by
      apply List.getD_eq_default
      rw [downsample_toUpper_length]
      exact Nat.le_of_not_lt h
    have hscr : scratchOf lv.adj (toLowerOf (downsampleLevel lv es).toUpper)
        ((downsampleLevel lv es).toUpper.getD c (INVALID, INVALID)) = [] := by
      rw [hparents]
      unfold scratchOf
      simp
    rw [hrow, hscr]
    refine ⟨by simp, by simp, ?_⟩
    intro d _
    constructor
    · rfl
    · simp

/-! ## The multi-resolution hierarchy: propagation (hierarchy.cpp:529-703)

Vector arithmetic lives in `ℝ × ℝ × ℝ` (idealised float 3-vectors); the
symmetry compatibility operators `compat_orientation_extrinsic_{2,4,6}`
and `compat_position_extrinsic_{3,4}` are external collaborators (spec,
section 6) and enter as opaque function parameters. -/

abbrev Vec3 := ℝ × ℝ × ℝ

noncomputable def dot3 (a b : Vec3) : ℝ := a.1 * b.1 + a.2.1 * b.2.1 + a.2.2 * b.2.2

noncomputable def smul3 (c : ℝ) (v : Vec3) : Vec3 := (c * v.1, c * v.2.1, c * v.2.2)

noncomputable def sqnorm3 (v : Vec3) : ℝ := dot3 v v

/-- Eigen's `normalize()`: division by the Euclidean norm. -/
noncomputable def normalize3 (v : Vec3) : Vec3 :=
  smul3 (1 / Real.sqrt (sqnorm3 v)) v

/-- Guard threshold for normalization. Modelled from the spec (`RCPOVERFLOW`:
"tiny positive float threshold used to guard normalization against division
by zero"; its definition lives in the unstaged common header, value
2.93873587705571876e-39 in the single-precision build). -/
noncomputable def RCPOVERFLOW : ℝ := 293873587705571876 / 10 ^ 56

theorem RCPOVERFLOW_pos : 0 < RCPOVERFLOW := by
  unfold RCPOVERFLOW
  positivity

/-- Signature of `compat_orientation_extrinsic_k`. -/
abbrev CompatO := Vec3 → Vec3 → Vec3 → Vec3 → Vec3 × Vec3

/-- Signature of `compat_position_extrinsic_k`. -/
abbrev CompatP := Vec3 → Vec3 → Vec3 → Vec3 → Vec3 → Vec3 → Vec3 → Vec3 → ℝ → ℝ → Vec3 × Vec3

/-- Hierarchy state as the propagation claims reach it: per-level sizes,
`toUpper` parent pairs, fields and constraint data. -/
structure Hierarchy where
  levels : ℕ
  size : ℕ → ℕ
  toUpper : ℕ → ℕ → ℕ × ℕ
  Q : ℕ → ℕ → Vec3
  N : ℕ → ℕ → Vec3
  V : ℕ → ℕ → Vec3
  CQ : ℕ → ℕ → Vec3
  CO : ℕ → ℕ → Vec3
  CQw : ℕ → ℕ → ℚ
  COw : ℕ → ℕ → ℚ
  scale : ℝ

/-- Combination start of the coarse tangent (hierarchy.cpp:568-580): the
single parent's tangent for an unmatched coarse vertex, else the sum of
the two vectors the symmetry operator returns. -/
noncomputable def coarseTangentStart (compat : CompatO) (Qf Nf : ℕ → Vec3)
    (upper : ℕ × ℕ) : Vec3 :=
  if upper.2 ≠ INVALID then
    (compat (Qf upper.1) (Nf upper.1) (Qf upper.2) (Nf upper.2)).1 +
    (compat (Qf upper.1) (Nf upper.1) (Qf upper.2) (Nf upper.2)).2
  else Qf upper.1

/-- Tangent-plane projection `q -= n.dot(q) * n` (hierarchy.cpp:582). -/
noncomputable def projectTangent (q n : Vec3) : Vec3 := q - smul3 (dot3 n q) n

/-- One coarse-vertex update of `propagateSolution` (hierarchy.cpp:567-586):
combine, project, renormalize only when the squared norm exceeds
`RCPOVERFLOW`. -/
noncomputable def propagateSolutionStep (compat : CompatO) (Qf Nf : ℕ → Vec3)
    (nNext : Vec3) (upper : ℕ × ℕ) : Vec3 :=
  let q2 := projectTangent (coarseTangentStart compat Qf Nf upper) nNext
  if RCPOVERFLOW < sqnorm3 q2 then normalize3 q2 else q2

/-- One level iteration of `propagateSolution` (hierarchy.cpp:558-590):
write level `l+1` of `Q` from level `l`. -/
noncomputable def solutionUpdate (compat : CompatO) (h : Hierarchy) (l : ℕ) : Hierarchy :=
  { h with Q := fun l' i =>
      if l' = l + 1 ∧ i < h.size (l + 1) then
        propagateSolutionStep compat (h.Q l) (h.N l) (h.N (l + 1) i) (h.toUpper l i)
      else h.Q l' i }

/-- The level loop of `propagateSolution` after symmetry dispatch. -/
noncomputable def propagateSolutionRun (compat : CompatO) (h : Hierarchy) : Hierarchy :=
  (List.range (h.levels - 1)).foldl (solutionUpdate compat) h

/-- MultiResolutionHierarchy::propagateSolution (hierarchy.cpp:544-592):
dispatch on `rosy` first (function-pointer selection; `throw` at line 553),
then run the level loop. -/
noncomputable def MultiResolutionHierarchy.propagateSolution
    (compat2 compat4 compat6 : CompatO) (h : Hierarchy) (rosy : ℤ) :
    Except HError Hierarchy :=
  if rosy = 2 then .ok (propagateSolutionRun compat2 h)
  else if rosy = 4 then .ok (propagateSolutionRun compat4 h)
  else if rosy = 6 then .ok (propagateSolutionRun compat6 h)
  else .error .unsupportedSymmetry

/-- Pre-clamp combined constraint weight of one coarse vertex
(hierarchy.cpp:647-657 for `cqw`, 665-678 for `cow`): the branch table on
which parents carry a nonzero weight. -/
def combinedW (w : ℕ → ℚ) (upper : ℕ × ℕ) : ℚ :=
  if w upper.1 ≠ 0 ∧ ¬(upper.2 ≠ INVALID ∧ w upper.2 ≠ 0) then w upper.1
  else if (upper.2 ≠ INVALID ∧ w upper.2 ≠ 0) ∧ ¬(w upper.1 ≠ 0) then w upper.2
  else if (upper.2 ≠ INVALID ∧ w upper.2 ≠ 0) ∧ (w upper.1 ≠ 0) then
    w upper.1 + w upper.2
  else 0

open Classical in
/-- One coarse-vertex update of `propagateConstraints`
(hierarchy.cpp:637-697), producing `(cq, cqw, co, cow)`; the weights are
clamped to 1 when positive (the `#else` branch at hierarchy.cpp:687-692). -/
noncomputable def constraintStep (compatO : CompatO) (compatP : CompatP)
    (h : Hierarchy) (l i : ℕ) : Vec3 × ℚ × Vec3 × ℚ :=
  let upper := h.toUpper l i
  let has_cq0 := h.CQw l upper.1 ≠ 0
  let has_cq1 := upper.2 ≠ INVALID ∧ h.CQw l upper.2 ≠ 0
  let has_co0 := h.COw l upper.1 ≠ 0
  let has_co1 := upper.2 ≠ INVALID ∧ h.COw l upper.2 ≠ 0
  let cq0 : Vec3 :=
    if has_cq0 ∧ ¬has_cq1 then h.CQ l upper.1
    else if has_cq1 ∧ ¬has_cq0 then h.CQ l upper.2
    else if has_cq1 ∧ has_cq0 then
      (smul3 ((h.CQw l upper.1 : ℝ))
          (compatO (h.CQ l upper.1) (h.N l upper.1) (h.CQ l upper.2) (h.N l upper.2)).1 +
        smul3 ((h.CQw l upper.2 : ℝ))
          (compatO (h.CQ l upper.1) (h.N l upper.1) (h.CQ l upper.2) (h.N l upper.2)).2)
    else (0, 0, 0)
  let cq1 : Vec3 :=
    if cq0 ≠ ((0 : ℝ), (0 : ℝ), (0 : ℝ)) then
      let proj := cq0 - smul3 (dot3 (h.N (l + 1) i) cq0) (h.N (l + 1) i)
      if RCPOVERFLOW < sqnorm3 proj then normalize3 proj else proj
    else cq0
  let co0 : Vec3 :=
    if has_co0 ∧ ¬has_co1 then h.CO l upper.1
    else if has_co1 ∧ ¬has_co0 then h.CO l upper.2
    else if has_co1 ∧ has_co0 then
      smul3 (1 / ((h.COw l upper.1 : ℝ) + (h.COw l upper.2 : ℝ)))
        (smul3 ((h.COw l upper.1 : ℝ))
            (compatP (h.V l upper.1) (h.N l upper.1) (h.CQ l upper.1) (h.CO l upper.1)
              (h.V l upper.2) (h.N l upper.2) (h.CQ l upper.2) (h.CO l upper.2)
              h.scale (1 / h.scale)).1 +
          smul3 ((h.COw l upper.2 : ℝ))
            (compatP (h.V l upper.1) (h.N l upper.1) (h.CQ l upper.1) (h.CO l upper.1)
              (h.V l upper.2) (h.N l upper.2) (h.CQ l upper.2) (h.CO l upper.2)
              h.scale (1 / h.scale)).2)
    else (0, 0, 0)
  let co1 : Vec3 :=
    if co0 ≠ ((0 : ℝ), (0 : ℝ), (0 : ℝ)) then
      co0 - smul3 (dot3 (h.N (l + 1) i) (cq1 - h.V (l + 1) i)) (h.N (l + 1) i)
    else co0
  let cqw1 : ℚ :=
    if 0 < combinedW (h.CQw l) upper then 1 else combinedW (h.CQw l) upper
  let cow1 : ℚ :=
    if 0 < combinedW (h.COw l) upper then 1 else combinedW (h.COw l) upper
  (cq1, cqw1, co1, cow1)

/-- One level iteration of `propagateConstraints` (hierarchy.cpp:620-701):
write level `l+1` of the constraint arrays from level `l`. -/
noncomputable def constraintUpdate (compatO : CompatO) (compatP : CompatP)
    (h : Hierarchy) (l : ℕ) : Hierarchy :=
  { h with
    CQ := fun l' i => if l' = l + 1 ∧ i < h.size (l + 1) then
      (constraintStep compatO compatP h l i).1 else h.CQ l' i
    CQw := fun l' i => if l' = l + 1 ∧ i < h.size (l + 1) then
      (constraintStep compatO compatP h l i).2.1 else h.CQw l' i
    CO := fun l' i => if l' = l + 1 ∧ i < h.size (l + 1) then
      (constraintStep compatO compatP h l i).2.2.1 else h.CO l' i
    COw := fun l' i => if l' = l + 1 ∧ i < h.size (l + 1) then
      (constraintStep compatO compatP h l i).2.2.2 else h.COw l' i }

/-- The level loop of `propagateConstraints` after both symmetry dispatches. -/
noncomputable def propagateConstraintsRun (compatO : CompatO) (compatP : CompatP)
    (h : Hierarchy) : Hierarchy :=
  (List.range (h.levels - 1)).foldl (constraintUpdate compatO compatP) h

/-- MultiResolutionHierarchy::propagateConstraints (hierarchy.cpp:594-703):
empty-hierarchy early return (line 595) comes before the `rosy` dispatch
(throw at line 608) and the `posy` dispatch (throw at line 616). -/
noncomputable def MultiResolutionHierarchy.propagateConstraints
    (compat2 compat4 compat6 : CompatO) (compat3p compat4p : CompatP)
    (h : Hierarchy) (rosy posy : ℤ) : Except HError Hierarchy :=
  if h.levels = 0 then .ok h
  else
    match (if rosy = 2 then .ok compat2
           else if rosy = 4 then .ok compat4
           else if rosy = 6 then .ok compat6
           else .error HError.unsupportedSymmetry : Except HError CompatO) with
    | .error e => .error e
    | .ok cO =>
      match (if posy = 4 then .ok compat4p
             else if posy = 3 then .ok compat3p
             else .error HError.unsupportedSymmetry : Except HError CompatP) with
      | .error e => .error e
      | .ok cP => .ok (propagateConstraintsRun cO cP h)

/-- MultiResolutionHierarchy::clearConstraints (hierarchy.cpp:529-542):
early return on an empty hierarchy, else zero the weight arrays of every
level (the direction/position arrays are only resized). -/
def MultiResolutionHierarchy.clearConstraints (h : Hierarchy) : Hierarchy :=
  if h.levels = 0 then h
  else { h with
    CQw := fun l i => if l < h.levels ∧ i < h.size l then 0 else h.CQw l i,
    COw := fun l i => if l < h.levels ∧ i < h.size l then 0 else h.COw l i }

/-! ## Symmetry validation and the empty hierarchy (C8, C10) -/

/-- C8 (amended): `propagateSolution` raises UnsupportedSymmetry exactly
when `rosy ∉ {2,4,6}` (it has no empty-hierarchy early return);
`propagateConstraints` raises it exactly when the hierarchy is nonempty
and `rosy ∉ {2,4,6}` or `posy ∉ {3,4}` — the `levels() == 0` early return
precedes both validations. In either case the error happens at dispatch,
before the level loop touches any state. -/
theorem symmetry_validation (c2 c4 c6 : CompatO) (p3 p4 : CompatP)
    (h : Hierarchy) (rosy posy : ℤ) :
    (MultiResolutionHierarchy.propagateSolution c2 c4 c6 h rosy =
        .error .unsupportedSymmetry ↔ ¬(rosy = 2 ∨ rosy = 4 ∨ rosy = 6)) ∧
    (MultiResolutionHierarchy.propagateConstraints c2 c4 c6 p3 p4 h rosy posy =
        .error .unsupportedSymmetry ↔
      h.levels ≠ 0 ∧ ¬((rosy = 2 ∨ rosy = 4 ∨ rosy = 6) ∧ (posy = 3 ∨ posy = 4))) := by
  constructor
  · unfold MultiResolutionHierarchy.propagateSolution
    rcases Decidable.em (rosy = 2) with h2 | h2 <;>
      rcases Decidable.em (rosy = 4) with h4 | h4 <;>
        rcases Decidable.em (rosy = 6) with h6 | h6 <;>
          simp [h2, h4, h6]
  · unfold MultiResolutionHierarchy.propagateConstraints
    rcases Decidable.em (h.levels = 0) with hL | hL
    · simp [hL]
    · rcases Decidable.em (rosy = 2) with h2 | h2 <;>
        rcases Decidable.em (rosy = 4) with h4 | h4 <;>
          rcases Decidable.em (rosy = 6) with h6 | h6 <;>
            rcases Decidable.em (posy = 3) with q3 | q3 <;>
              rcases Decidable.em (posy = 4) with q4 | q4 <;>
                simp [hL, h2, h4, h6, q3, q4]

/-- Trivial instantiations of the opaque symmetry operators, used only to
exhibit concrete counterexample inputs. -/
def trivCompatO : CompatO := fun q0 _ q1 _ => (q0, q1)

def trivCompatP : CompatP := fun _ _ _ o0 _ _ _ o1 _ _ => (o0, o1)

/-- An empty hierarchy state. -/
noncomputable def emptyHierarchy : Hierarchy where
  levels := 0
  size := fun _ => 0
  toUpper := fun _ _ => (0, INVALID)
  Q := fun _ _ => ((0 : ℝ), (0 : ℝ), (0 : ℝ))
  N := fun _ _ => ((0 : ℝ), (0 : ℝ), (0 : ℝ))
  V := fun _ _ => ((0 : ℝ), (0 : ℝ), (0 : ℝ))
  CQ := fun _ _ => ((0 : ℝ), (0 : ℝ), (0 : ℝ))
  CO := fun _ _ => ((0 : ℝ), (0 : ℝ), (0 : ℝ))
  CQw := fun _ _ => 0
  COw := fun _ _ => 0
  scale := 1

/-- Counterexample to C8 as stated: on an empty hierarchy with the invalid
symmetry `rosy = 3`, `propagateConstraints` returns the state unchanged
instead of raising, because the `levels() == 0` return precedes validation. -/
theorem empty_hierarchy_invalid_rosy_ok :
    MultiResolutionHierarchy.propagateConstraints trivCompatO trivCompatO trivCompatO
      trivCompatP trivCompatP emptyHierarchy 3 3 = .ok emptyHierarchy ∧
    ¬((3 : ℤ) = 2 ∨ (3 : ℤ) = 4 ∨ (3 : ℤ) = 6) :=
  ⟨rfl, by decide⟩

/-- C10: on a hierarchy with zero levels, `clearConstraints` and
`propagateConstraints` return immediately as no-ops for any arguments —
in particular unsupported symmetry values raise nothing, since the early
return precedes validation. -/
theorem empty_hierarchy_noop (h : Hierarchy) (hL : h.levels = 0) :
    MultiResolutionHierarchy.clearConstraints h = h ∧
    ∀ (c2 c4 c6 : CompatO) (p3 p4 : CompatP) (rosy posy : ℤ),
      MultiResolutionHierarchy.propagateConstraints c2 c4 c6 p3 p4 h rosy posy = .ok h := by
  constructor
  · unfold MultiResolutionHierarchy.clearConstraints
    rw [if_pos hL]
  · intro c2 c4 c6 p3 p4 rosy posy
    unfold MultiResolutionHierarchy.propagateConstraints
    rw [if_pos hL]

/-- Witness for C10 at the concrete empty hierarchy. -/
theorem empty_hierarchy_noop_witness :
    MultiResolutionHierarchy.clearConstraints emptyHierarchy = emptyHierarchy ∧
    ∀ (c2 c4 c6 : CompatO) (p3 p4 : CompatP) (rosy posy : ℤ),
      MultiResolutionHierarchy.propagateConstraints c2 c4 c6 p3 p4 emptyHierarchy rosy posy =
        .ok emptyHierarchy :=
  empty_hierarchy_noop emptyHierarchy rfl

/-! ## Constraint weight clamping (C5) -/

section ConstraintFold

variable (cO : CompatO) (cP : CompatP) (h : Hierarchy)

/-- Prefix of the `propagateConstraints` level loop: the state after the
first `k` iterations. -/
noncomputable def FC (k : ℕ) : Hierarchy :=
  (List.range k).foldl (constraintUpdate cO cP) h

theorem FC_zero : FC cO cP h 0 = h := rfl

theorem FC_succ (k : ℕ) : FC cO cP h (k + 1) = constraintUpdate cO cP (FC cO cP h k) k := by
  unfold FC
  rw [List.range_succ, List.foldl_append]
  rfl

theorem FC_size (k : ℕ) : (FC cO cP h k).size = h.size := by
  induction k with
  | zero => rfl
  | succ k ih => rw [FC_succ]; exact ih

theorem FC_levels (k : ℕ) : (FC cO cP h k).levels = h.levels := by
  induction k with
  | zero => rfl
  | succ k ih => rw [FC_succ]; exact ih

theorem FC_toUpper (k : ℕ) : (FC cO cP h k).toUpper = h.toUpper := by
  induction k with
  | zero => rfl
  | succ k ih => rw [FC_succ]; exact ih

theorem FC_CQw_high (k : ℕ) : ∀ l', l' = 0 ∨ k < l' →
    (FC cO cP h k).CQw l' = h.CQw l' := by
  induction k with
  | zero => intro l' _; rfl
  | succ k ih =>
    intro l' hl'
    rw [FC_succ]
    have hne : l' ≠ k + 1 := by omega
    have : (constraintUpdate cO cP (FC cO cP h k) k).CQw l' = (FC cO cP h k).CQw l' := by
      funext i
      show (if l' = k + 1 ∧ i < (FC cO cP h k).size (k + 1) then _ else (FC cO cP h k).CQw l' i) = _
      simp [hne]
    rw [this]
    exact ih l' (by omega)

theorem FC_COw_high (k : ℕ) : ∀ l', l' = 0 ∨ k < l' →
    (FC cO cP h k).COw l' = h.COw l' := by
  induction k with
  | zero => intro l' _; rfl
  | succ k ih =>
    intro l' hl'
    rw [FC_succ]
    have hne : l' ≠ k + 1 := by omega
    have : (constraintUpdate cO cP (FC cO cP h k) k).COw l' = (FC cO cP h k).COw l' := by
      funext i
      show (if l' = k + 1 ∧ i < (FC cO cP h k).size (k + 1) then _ else (FC cO cP h k).COw l' i) = _
      simp [hne]
    rw [this]
    exact ih l' (by omega)

theorem FC_CQw_stable (k : ℕ) : ∀ l', l' ≤ k →
    (FC cO cP h k).CQw l' = (FC cO cP h l').CQw l' := by
  induction k with
  | zero =>
    intro l' hl'
    have h0 : l' = 0 := Nat.le_zero.1 hl'
    subst h0
    rfl
  | succ k ih =>
    intro l' hl'
    rcases Decidable.em (l' = k + 1) with rfl | hne
    · rfl
    · rw [FC_succ]
      have : (constraintUpdate cO cP (FC cO cP h k) k).CQw l' = (FC cO cP h k).CQw l' := by
        funext i
        show (if l' = k + 1 ∧ i < (FC cO cP h k).size (k + 1) then _ else (FC cO cP h k).CQw l' i) = _
        simp [hne]
      rw [this]
      exact ih l' (by omega)

theorem FC_COw_stable (k : ℕ) : ∀ l', l' ≤ k →
    (FC cO cP h k).COw l' = (FC cO cP h l').COw l' := by
  induction k with
  | zero =>
    intro l' hl'
    have h0 : l' = 0 := Nat.le_zero.1 hl'
    subst h0
    rfl
  | succ k ih =>
    intro l' hl'
    rcases Decidable.em (l' = k + 1) with rfl | hne
    · rfl
    · rw [FC_succ]
      have : (constraintUpdate cO cP (FC cO cP h k) k).COw l' = (FC cO cP h k).COw l' := by
        funext i
        show (if l' = k + 1 ∧ i < (FC cO cP h k).size (k + 1) then _ else (FC cO cP h k).COw l' i) = _
        simp [hne]
      rw [this]
      exact ih l' (by omega)

theorem constraintStep_cqw (g : Hierarchy) (l i : ℕ) :
    (constraintStep cO cP g l i).2.1 =
      if 0 < combinedW (g.CQw l) (g.toUpper l i) then 1
      else combinedW (g.CQw l) (g.toUpper l i) := rfl

theorem constraintStep_cow (g : Hierarchy) (l i : ℕ) :
    (constraintStep cO cP g l i).2.2.2 =
      if 0 < combinedW (g.COw l) (g.toUpper l i) then 1
      else combinedW (g.COw l) (g.toUpper l i) := rfl

theorem FC_CQw_write (l i : ℕ) :
    (FC cO cP h (l + 1)).CQw (l + 1) i =
      if i < h.size (l + 1) then
        (if 0 < combinedW ((FC cO cP h l).CQw l) (h.toUpper l i) then 1
         else combinedW ((FC cO cP h l).CQw l) (h.toUpper l i))
      else h.CQw (l + 1) i := by
  rw [FC_succ]
  show (if (l + 1 = l + 1 ∧ i < (FC cO cP h l).size (l + 1)) then
      (constraintStep cO cP (FC cO cP h l) l i).2.1 else (FC cO cP h l).CQw (l + 1) i) = _
  rw [FC_size, constraintStep_cqw, FC_toUpper]
  rcases Decidable.em (i < h.size (l + 1)) with hi | hi
  · simp only [hi, and_true, true_and, if_pos rfl]
    simp
  · simp only [hi, and_false, if_neg, if_false]
    have := FC_CQw_high cO cP h l (l + 1) (by omega)
    simp [this]

theorem FC_COw_write (l i : ℕ) :
    (FC cO cP h (l + 1)).COw (l + 1) i =
      if i < h.size (l + 1) then
        (if 0 < combinedW ((FC cO cP h l).COw l) (h.toUpper l i) then 1
         else combinedW ((FC cO cP h l).COw l) (h.toUpper l i))
      else h.COw (l + 1) i := by
  rw [FC_succ]
  show (if (l + 1 = l + 1 ∧ i < (FC cO cP h l).size (l + 1)) then
      (constraintStep cO cP (FC cO cP h l) l i).2.2.2 else (FC cO cP h l).COw (l + 1) i) = _
  rw [FC_size, constraintStep_cow, FC_toUpper]
  rcases Decidable.em (i < h.size (l + 1)) with hi | hi
  · simp only [hi, and_true, true_and, if_pos rfl]
    simp
  · simp only [hi, and_false, if_neg, if_false]
    have := FC_COw_high cO cP h l (l + 1) (by omega)
    simp [this]

end ConstraintFold

theorem combinedW_nonneg (w : ℕ → ℚ) (upper : ℕ × ℕ) (hw : ∀ v, 0 ≤ w v) :
    0 ≤ combinedW w upper := by
  unfold combinedW
  split_ifs
  · exact hw _
  · exact hw _
  · exact add_nonneg (hw _) (hw _)
  · exact le_refl 0

theorem run_eq_FC (cO : CompatO) (cP : CompatP) (h : Hierarchy) :
    propagateConstraintsRun cO cP h = FC cO cP h (h.levels - 1) := rfl

theorem run_CQw_nonneg (cO : CompatO) (cP : CompatP) (h : Hierarchy)
    (hq : ∀ l i, 0 ≤ h.CQw l i) :
    ∀ l i, 0 ≤ (propagateConstraintsRun cO cP h).CQw l i := by
  have key : ∀ l i, 0 ≤ (FC cO cP h l).CQw l i := by
    intro l
    induction l with
    | zero => intro i; exact hq 0 i
    | succ l ih =>
      intro i
      rw [FC_CQw_write]
      rcases Decidable.em (i < h.size (l + 1)) with hi | hi
      · rw [if_pos hi]
        split_ifs
        · norm_num
        · exact combinedW_nonneg _ _ ih
      · rw [if_neg hi]
        exact hq (l + 1) i
  intro l i
  rw [run_eq_FC]
  rcases Decidable.em (l ≤ h.levels - 1) with hle | hgt
  · rw [FC_CQw_stable cO cP h (h.levels - 1) l hle]
    exact key l i
  · rw [FC_CQw_high cO cP h (h.levels - 1) l (Or.inr (by omega))]
    exact hq l i

theorem run_COw_nonneg (cO : CompatO) (cP : CompatP) (h : Hierarchy)
    (ho : ∀ l i, 0 ≤ h.COw l i) :
    ∀ l i, 0 ≤ (propagateConstraintsRun cO cP h).COw l i := by
  have key : ∀ l i, 0 ≤ (FC cO cP h l).COw l i := by
    intro l
    induction l with
    | zero => intro i; exact ho 0 i
    | succ l ih =>
      intro i
      rw [FC_COw_write]
      rcases Decidable.em (i < h.size (l + 1)) with hi | hi
      · rw [if_pos hi]
        split_ifs
        · norm_num
        · exact combinedW_nonneg _ _ ih
      · rw [if_neg hi]
        exact ho (l + 1) i
  intro l i
  rw [run_eq_FC]
  rcases Decidable.em (l ≤ h.levels - 1) with hle | hgt
  · rw [FC_COw_stable cO cP h (h.levels - 1) l hle]
    exact key l i
  · rw [FC_COw_high cO cP h (h.levels - 1) l (Or.inr (by omega))]
    exact ho l i

theorem run_CQw_eq (cO : CompatO) (cP : CompatP) (h : Hierarchy)
    (l : ℕ) (hl : l < h.levels - 1) (i : ℕ) (hi : i < h.size (l + 1)) :
    (propagateConstraintsRun cO cP h).CQw (l + 1) i =
      if 0 < combinedW ((propagateConstraintsRun cO cP h).CQw l) (h.toUpper l i) then 1
      else combinedW ((propagateConstraintsRun cO cP h).CQw l) (h.toUpper l i) := by
  rw [run_eq_FC, FC_CQw_stable cO cP h (h.levels - 1) (l + 1) (by omega),
    FC_CQw_write, if_pos hi, FC_CQw_stable cO cP h (h.levels - 1) l (by omega)]

theorem run_COw_eq (cO : CompatO) (cP : CompatP) (h : Hierarchy)
    (l : ℕ) (hl : l < h.levels - 1) (i : ℕ) (hi : i < h.size (l + 1)) :
    (propagateConstraintsRun cO cP h).COw (l + 1) i =
      if 0 < combinedW ((propagateConstraintsRun cO cP h).COw l) (h.toUpper l i) then 1
      else combinedW ((propagateConstraintsRun cO cP h).COw l) (h.toUpper l i) := by
  rw [run_eq_FC, FC_COw_stable cO cP h (h.levels - 1) (l + 1) (by omega),
    FC_COw_write, if_pos hi, FC_COw_stable cO cP h (h.levels - 1) l (by omega)]

theorem run_weights (cO : CompatO) (cP : CompatP) (h : Hierarchy)
    (hq : ∀ l i, 0 ≤ h.CQw l i) (ho : ∀ l i, 0 ≤ h.COw l i) :
    ∀ l, l < h.levels - 1 → ∀ i, i < h.size (l + 1) →
      ((0 < combinedW ((propagateConstraintsRun cO cP h).CQw l) (h.toUpper l i) →
          (propagateConstraintsRun cO cP h).CQw (l + 1) i = 1) ∧
        (¬0 < combinedW ((propagateConstraintsRun cO cP h).CQw l) (h.toUpper l i) →
          (propagateConstraintsRun cO cP h).CQw (l + 1) i = 0) ∧
        ((propagateConstraintsRun cO cP h).CQw (l + 1) i = 0 ∨
          (propagateConstraintsRun cO cP h).CQw (l + 1) i = 1)) ∧
      ((0 < combinedW ((propagateConstraintsRun cO cP h).COw l) (h.toUpper l i) →
          (propagateConstraintsRun cO cP h).COw (l + 1) i = 1) ∧
        (¬0 < combinedW ((propagateConstraintsRun cO cP h).COw l) (h.toUpper l i) →
          (propagateConstraintsRun cO cP h).COw (l + 1) i = 0) ∧
        ((propagateConstraintsRun cO cP h).COw (l + 1) i = 0 ∨
          (propagateConstraintsRun cO cP h).COw (l + 1) i = 1)) := by
  intro l hl i hi
  have heq := run_CQw_eq cO cP h l hl i hi
  have heo := run_COw_eq cO cP h l hl i hi
  have hq' : 0 ≤ combinedW ((propagateConstraintsRun cO cP h).CQw l) (h.toUpper l i) :=
    combinedW_nonneg _ _ (run_CQw_nonneg cO cP h hq l)
  have ho' : 0 ≤ combinedW ((propagateConstraintsRun cO cP h).COw l) (h.toUpper l i) :=
    combinedW_nonneg _ _ (run_COw_nonneg cO cP h ho l)
  constructor
  · refine ⟨fun hpos => ?_, fun hnon => ?_, ?_⟩
    · rw [heq, if_pos hpos]
    · rw [heq, if_neg hnon]
      exact le_antisymm (le_of_not_lt hnon) hq'
    · rcases Decidable.em
          (0 < combinedW ((propagateConstraintsRun cO cP h).CQw l) (h.toUpper l i)) with hc | hc
      · right; rw [heq, if_pos hc]
      · left
        rw [heq, if_neg hc]
        exact le_antisymm (le_of_not_lt hc) hq'
  · refine ⟨fun hpos => ?_, fun hnon => ?_, ?_⟩
    · rw [heo, if_pos hpos]
    · rw [heo, if_neg hnon]
      exact le_antisymm (le_of_not_lt hnon) ho'
    · rcases Decidable.em
          (0 < combinedW ((propagateConstraintsRun cO cP h).COw l) (h.toUpper l i)) with hc | hc
      · right; rw [heo, if_pos hc]
      · left
        rw [heo, if_neg hc]
        exact le_antisymm (le_of_not_lt hc) ho'

/-- C5: after `propagateConstraints` with nonnegative constraint weights,
every combined weight at levels `l+1` is clamped into `{0,1}`: exactly 1
whenever the combined (pre-clamp) weight is positive and exactly 0
otherwise, for both the direction weights `CQw` and the position weights
`COw`. -/
theorem constraint_weights_clamped (c2 c4 c6 : CompatO) (p3 p4 : CompatP)
    (h h' : Hierarchy) (rosy posy : ℤ)
    (hok : MultiResolutionHierarchy.propagateConstraints c2 c4 c6 p3 p4 h rosy posy = .ok h')
    (hq : ∀ l i, 0 ≤ h.CQw l i) (ho : ∀ l i, 0 ≤ h.COw l i) :
    ∀ l, l < h.levels - 1 → ∀ i, i < h.size (l + 1) →
      ((0 < combinedW (h'.CQw l) (h.toUpper l i) → h'.CQw (l + 1) i = 1) ∧
        (¬0 < combinedW (h'.CQw l) (h.toUpper l i) → h'.CQw (l + 1) i = 0) ∧
        (h'.CQw (l + 1) i = 0 ∨ h'.CQw (l + 1) i = 1)) ∧
      ((0 < combinedW (h'.COw l) (h.toUpper l i) → h'.COw (l + 1) i = 1) ∧
        (¬0 < combinedW (h'.COw l) (h.toUpper l i) → h'.COw (l + 1) i = 0) ∧
        (h'.COw (l + 1) i = 0 ∨ h'.COw (l + 1) i = 1)) := by
  unfold MultiResolutionHierarchy.propagateConstraints at hok
  rcases Decidable.em (h.levels = 0) with hL | hL
  · intro l hl
    rw [hL] at hl
    exact absurd hl (by omega)
  · rw [if_neg hL] at hok
    rcases Decidable.em (rosy = 2) with h2 | h2 <;>
      rcases Decidable.em (rosy = 4) with h4 | h4 <;>
        rcases Decidable.em (rosy = 6) with h6 | h6 <;>
          rcases Decidable.em (posy = 4) with q4 | q4 <;>
            rcases Decidable.em (posy = 3) with q3 | q3 <;>
              simp only [h2, h4, h6, q4, q3, if_pos, if_neg, if_true, if_false,
                not_false_iff] at hok <;>
      (try norm_num at hok) <;>
      first
        | (rw [Except.ok.injEq] at hok; subst hok; exact run_weights _ _ h hq ho)
        | (subst hok; exact run_weights _ _ h hq ho)
        | (exact absurd hok (by simp))

/-- Concrete two-level hierarchy used by the propagation witnesses: one
coarse vertex whose single parent carries a tiny tangent and a positive
constraint weight. -/
noncomputable def twoLevelHierarchy : Hierarchy where
  levels := 2
  size := fun _ => 1
  toUpper := fun _ _ => (0, INVALID)
  Q := fun _ _ => ((1 : ℝ) / 10 ^ 30, 0, 0)
  N := fun _ _ => ((0 : ℝ), 0, 1)
  V := fun _ _ => ((0 : ℝ), 0, 0)
  CQ := fun _ _ => ((0 : ℝ), 0, 0)
  CO := fun _ _ => ((0 : ℝ), 0, 0)
  CQw := fun _ _ => 5
  COw := fun _ _ => 5
  scale := 1

/-- Witness for C5 at the concrete two-level hierarchy, level 0, vertex 0. -/
theorem constraint_weights_clamped_witness :
    ((0 < combinedW ((propagateConstraintsRun trivCompatO trivCompatP twoLevelHierarchy).CQw 0)
          (twoLevelHierarchy.toUpper 0 0) →
        (propagateConstraintsRun trivCompatO trivCompatP twoLevelHierarchy).CQw (0 + 1) 0 = 1) ∧
      (¬0 < combinedW ((propagateConstraintsRun trivCompatO trivCompatP twoLevelHierarchy).CQw 0)
          (twoLevelHierarchy.toUpper 0 0) →
        (propagateConstraintsRun trivCompatO trivCompatP twoLevelHierarchy).CQw (0 + 1) 0 = 0) ∧
      ((propagateConstraintsRun trivCompatO trivCompatP twoLevelHierarchy).CQw (0 + 1) 0 = 0 ∨
        (propagateConstraintsRun trivCompatO trivCompatP twoLevelHierarchy).CQw (0 + 1) 0 = 1)) ∧
    ((0 < combinedW ((propagateConstraintsRun trivCompatO trivCompatP twoLevelHierarchy).COw 0)
          (twoLevelHierarchy.toUpper 0 0) →
        (propagateConstraintsRun trivCompatO trivCompatP twoLevelHierarchy).COw (0 + 1) 0 = 1) ∧
      (¬0 < combinedW ((propagateConstraintsRun trivCompatO trivCompatP twoLevelHierarchy).COw 0)
          (twoLevelHierarchy.toUpper 0 0) →
        (propagateConstraintsRun trivCompatO trivCompatP twoLevelHierarchy).COw (0 + 1) 0 = 0) ∧
      ((propagateConstraintsRun trivCompatO trivCompatP twoLevelHierarchy).COw (0 + 1) 0 = 0 ∨
        (propagateConstraintsRun trivCompatO trivCompatP twoLevelHierarchy).COw (0 + 1) 0 = 1)) :=
  constraint_weights_clamped trivCompatO trivCompatO trivCompatO trivCompatP trivCompatP
    twoLevelHierarchy (propagateConstraintsRun trivCompatO trivCompatP twoLevelHierarchy) 2 3
    rfl (fun _ _ => by show (0 : ℚ) ≤ 5; norm_num)
    (fun _ _ => by show (0 : ℚ) ≤ 5; norm_num)
    0 (by decide) 0 (by decide)

/-! ## Coarse tangent propagation (C4) -/

section SolutionFold

variable (compat : CompatO) (h : Hierarchy)

/-- Prefix of the `propagateSolution` level loop. -/
noncomputable def FS (k : ℕ) : Hierarchy :=
  (List.range k).foldl (solutionUpdate compat) h

theorem FS_succ (k : ℕ) : FS compat h (k + 1) = solutionUpdate compat (FS compat h k) k := by
  unfold FS
  rw [List.range_succ, List.foldl_append]
  rfl

theorem FS_size (k : ℕ) : (FS compat h k).size = h.size := by
  induction k with
  | zero => rfl
  | succ k ih => rw [FS_succ]; exact ih

theorem FS_toUpper (k : ℕ) : (FS compat h k).toUpper = h.toUpper := by
  induction k with
  | zero => rfl
  | succ k ih => rw [FS_succ]; exact ih

theorem FS_N (k : ℕ) : (FS compat h k).N = h.N := by
  induction k with
  | zero => rfl
  | succ k ih => rw [FS_succ]; exact ih

theorem FS_Q_high (k : ℕ) : ∀ l', l' = 0 ∨ k < l' →
    (FS compat h k).Q l' = h.Q l' := by
  induction k with
  | zero => intro l' _; rfl
  | succ k ih =>
    intro l' hl'
    rw [FS_succ]
    have hne : l' ≠ k + 1 := by omega
    have heq : (solutionUpdate compat (FS compat h k) k).Q l' = (FS compat h k).Q l' := by
      funext i
      show (if l' = k + 1 ∧ i < (FS compat h k).size (k + 1) then _
        else (FS compat h k).Q l' i) = _
      simp [hne]
    rw [heq]
    exact ih l' (by omega)

theorem FS_Q_stable (k : ℕ) : ∀ l', l' ≤ k →
    (FS compat h k).Q l' = (FS compat h l').Q l' := by
  induction k with
  | zero =>
    intro l' hl'
    have h0 : l' = 0 := Nat.le_zero.1 hl'
    subst h0
    rfl
  | succ k ih =>
    intro l' hl'
    rcases Decidable.em (l' = k + 1) with rfl | hne
    · rfl
    · rw [FS_succ]
      have heq : (solutionUpdate compat (FS compat h k) k).Q l' = (FS compat h k).Q l' := by
        funext i
        show (if l' = k + 1 ∧ i < (FS compat h k).size (k + 1) then _
          else (FS compat h k).Q l' i) = _
        simp [hne]
      rw [heq]
      exact ih l' (by omega)

theorem FS_Q_write (l i : ℕ) :
    (FS compat h (l + 1)).Q (l + 1) i =
      if i < h.size (l + 1) then
        propagateSolutionStep compat ((FS compat h l).Q l) (h.N l) (h.N (l + 1) i)
          (h.toUpper l i)
      else h.Q (l + 1) i := by
  rw [FS_succ]
  show (if (l + 1 = l + 1 ∧ i < (FS compat h l).size (l + 1)) then
      propagateSolutionStep compat ((FS compat h l).Q l) ((FS compat h l).N l)
        ((FS compat h l).N (l + 1) i) ((FS compat h l).toUpper l i)
    else (FS compat h l).Q (l + 1) i) = _
  rw [FS_size, FS_toUpper, FS_N]
  rcases Decidable.em (i < h.size (l + 1)) with hi | hi
  · simp only [hi, and_true, true_and, if_pos rfl]
    simp
  · simp only [hi, and_false, if_neg, if_false]
    have := FS_Q_high compat h l (l + 1) (by omega)
    simp [this]

end SolutionFold

theorem runSol_eq_FS (compat : CompatO) (h : Hierarchy) :
    propagateSolutionRun compat h = FS compat h (h.levels - 1) := rfl

theorem runSol_Q_eq (compat : CompatO) (h : Hierarchy) (l : ℕ) (hl : l < h.levels - 1)
    (i : ℕ) (hi : i < h.size (l + 1)) :
    (propagateSolutionRun compat h).Q (l + 1) i =
      propagateSolutionStep compat ((propagateSolutionRun compat h).Q l) (h.N l)
        (h.N (l + 1) i) (h.toUpper l i) := by
  rw [runSol_eq_FS, FS_Q_stable compat h (h.levels - 1) (l + 1) (by omega),
    FS_Q_write, if_pos hi, FS_Q_stable compat h (h.levels - 1) l (by omega)]

theorem sqnorm3_nonneg (v : Vec3) : 0 ≤ sqnorm3 v := by
  have heq : sqnorm3 v = v.1 ^ 2 + v.2.1 ^ 2 + v.2.2 ^ 2 := by
    unfold sqnorm3 dot3
    ring
  rw [heq]
  positivity

theorem sqnorm3_smul (c : ℝ) (v : Vec3) : sqnorm3 (smul3 c v) = c ^ 2 * sqnorm3 v := by
  unfold sqnorm3 smul3 dot3
  ring

theorem sqnorm3_normalize {v : Vec3} (hv : 0 < sqnorm3 v) : sqnorm3 (normalize3 v) = 1 := by
  unfold normalize3
  rw [sqnorm3_smul, one_div, inv_pow, Real.sq_sqrt (le_of_lt hv)]
  exact inv_mul_cancel₀ (ne_of_gt hv)

/-- C4 (amended): in `propagateSolution`, for every level `l` and coarse
vertex `i` with parents `(p, q)`, the coarse tangent starts as `Q[l][p]`
when `q = INVALID` and as the sum of the two vectors `compat_orient`
returns otherwise; the vector is projected onto the tangent plane at
`N[l+1][i]` and renormalized (to squared norm 1) exactly when the
projected squared norm exceeds `RCPOVERFLOW`; otherwise the projected
vector is stored unchanged — in general a tiny nonzero vector, not the
zero vector. -/
theorem propagate_solution_tangent (compat : CompatO) (h : Hierarchy)
    (l : ℕ) (hl : l < h.levels - 1) (i : ℕ) (hi : i < h.size (l + 1)) :
    ((h.toUpper l i).2 = INVALID →
      coarseTangentStart compat ((propagateSolutionRun compat h).Q l) (h.N l) (h.toUpper l i) =
        (propagateSolutionRun compat h).Q l (h.toUpper l i).1) ∧
    ((h.toUpper l i).2 ≠ INVALID →
      coarseTangentStart compat ((propagateSolutionRun compat h).Q l) (h.N l) (h.toUpper l i) =
        (compat ((propagateSolutionRun compat h).Q l (h.toUpper l i).1)
            (h.N l (h.toUpper l i).1)
            ((propagateSolutionRun compat h).Q l (h.toUpper l i).2)
            (h.N l (h.toUpper l i).2)).1 +
          (compat ((propagateSolutionRun compat h).Q l (h.toUpper l i).1)
            (h.N l (h.toUpper l i).1)
            ((propagateSolutionRun compat h).Q l (h.toUpper l i).2)
            (h.N l (h.toUpper l i).2)).2) ∧
    (RCPOVERFLOW < sqnorm3 (projectTangent
        (coarseTangentStart compat ((propagateSolutionRun compat h).Q l) (h.N l) (h.toUpper l i))
        (h.N (l + 1) i)) →
      (propagateSolutionRun compat h).Q (l + 1) i =
        normalize3 (projectTangent
          (coarseTangentStart compat ((propagateSolutionRun compat h).Q l) (h.N l) (h.toUpper l i))
          (h.N (l + 1) i)) ∧
      sqnorm3 ((propagateSolutionRun compat h).Q (l + 1) i) = 1) ∧
    (¬RCPOVERFLOW < sqnorm3 (projectTangent
        (coarseTangentStart compat ((propagateSolutionRun compat h).Q l) (h.N l) (h.toUpper l i))
        (h.N (l + 1) i)) →
      (propagateSolutionRun compat h).Q (l + 1) i =
        projectTangent
          (coarseTangentStart compat ((propagateSolutionRun compat h).Q l) (h.N l) (h.toUpper l i))
          (h.N (l + 1) i)) := by
  have hQ := runSol_Q_eq compat h l hl i hi
  refine ⟨?_, ?_, ?_, ?_⟩
  · intro hinv
    unfold coarseTangentStart
    rw [if_neg (by simp [hinv])]
  · intro hninv
    unfold coarseTangentStart
    rw [if_pos hninv]
  · intro hcond
    have hstep : propagateSolutionStep compat ((propagateSolutionRun compat h).Q l) (h.N l)
        (h.N (l + 1) i) (h.toUpper l i) =
        normalize3 (projectTangent
          (coarseTangentStart compat ((propagateSolutionRun compat h).Q l) (h.N l) (h.toUpper l i))
          (h.N (l + 1) i)) := by
      unfold propagateSolutionStep
      rw [if_pos hcond]
    refine ⟨hQ.trans hstep, ?_⟩
    rw [hQ, hstep]
    exact sqnorm3_normalize (lt_trans RCPOVERFLOW_pos hcond)
  · intro hcond
    have hstep : propagateSolutionStep compat ((propagateSolutionRun compat h).Q l) (h.N l)
        (h.N (l + 1) i) (h.toUpper l i) =
        projectTangent
          (coarseTangentStart compat ((propagateSolutionRun compat h).Q l) (h.N l) (h.toUpper l i))
          (h.N (l + 1) i) := by
      unfold propagateSolutionStep
      rw [if_neg hcond]
    exact hQ.trans hstep

theorem twoLevel_Q_eval :
    (propagateSolutionRun trivCompatO twoLevelHierarchy).Q 1 0 =
      ((1 : ℝ) / 10 ^ 30, 0, 0) := by
  have hQ : (propagateSolutionRun trivCompatO twoLevelHierarchy).Q 1 0 =
      propagateSolutionStep trivCompatO (twoLevelHierarchy.Q 0) (twoLevelHierarchy.N 0)
        (twoLevelHierarchy.N 1 0) (twoLevelHierarchy.toUpper 0 0) := rfl
  have hstart : coarseTangentStart trivCompatO (twoLevelHierarchy.Q 0) (twoLevelHierarchy.N 0)
      (twoLevelHierarchy.toUpper 0 0) = ((1 : ℝ) / 10 ^ 30, 0, 0) := by
    unfold coarseTangentStart
    rw [if_neg (by simp [twoLevelHierarchy])]
    rfl
  have hproj : projectTangent ((1 : ℝ) / 10 ^ 30, 0, 0) (twoLevelHierarchy.N 1 0) =
      ((1 : ℝ) / 10 ^ 30, 0, 0) := by
    show projectTangent _ ((0 : ℝ), 0, 1) = _
    unfold projectTangent smul3 dot3
    norm_num
  have hcond : ¬(RCPOVERFLOW < sqnorm3 ((1 : ℝ) / 10 ^ 30, 0, 0)) := by
    unfold RCPOVERFLOW sqnorm3 dot3
    norm_num
  rw [hQ]
  unfold propagateSolutionStep
  rw [hstart, hproj, if_neg hcond]

/-- Counterexample to C4 as stated: a parent tangent of length 1e-30 is
already in the tangent plane; its squared norm 1e-60 is below
`RCPOVERFLOW`, so no renormalization happens — and the stored coarse
tangent is that tiny vector, not exactly the zero vector. -/
theorem tiny_tangent_not_zeroed :
    (propagateSolutionRun trivCompatO twoLevelHierarchy).Q 1 0 =
      ((1 : ℝ) / 10 ^ 30, 0, 0) ∧
    sqnorm3 ((1 : ℝ) / 10 ^ 30, 0, 0) ≤ RCPOVERFLOW ∧
    ((1 : ℝ) / 10 ^ 30, 0, 0) ≠ (((0 : ℝ), (0 : ℝ), (0 : ℝ)) : Vec3) := by
  refine ⟨twoLevel_Q_eval, ?_, ?_⟩
  · unfold RCPOVERFLOW sqnorm3 dot3
    norm_num
  · intro hcontra
    rw [Prod.ext_iff] at hcontra
    have := hcontra.1
    norm_num at this

/-- Witness for C4 (amended) on the concrete two-level hierarchy. -/
theorem propagate_solution_tangent_witness :
    ((twoLevelHierarchy.toUpper 0 0).2 = INVALID →
      coarseTangentStart trivCompatO ((propagateSolutionRun trivCompatO twoLevelHierarchy).Q 0)
          (twoLevelHierarchy.N 0) (twoLevelHierarchy.toUpper 0 0) =
        (propagateSolutionRun trivCompatO twoLevelHierarchy).Q 0
          (twoLevelHierarchy.toUpper 0 0).1) ∧
    ((twoLevelHierarchy.toUpper 0 0).2 ≠ INVALID →
      coarseTangentStart trivCompatO ((propagateSolutionRun trivCompatO twoLevelHierarchy).Q 0)
          (twoLevelHierarchy.N 0) (twoLevelHierarchy.toUpper 0 0) =
        (trivCompatO ((propagateSolutionRun trivCompatO twoLevelHierarchy).Q 0
              (twoLevelHierarchy.toUpper 0 0).1)
            (twoLevelHierarchy.N 0 (twoLevelHierarchy.toUpper 0 0).1)
            ((propagateSolutionRun trivCompatO twoLevelHierarchy).Q 0
              (twoLevelHierarchy.toUpper 0 0).2)
            (twoLevelHierarchy.N 0 (twoLevelHierarchy.toUpper 0 0).2)).1 +
          (trivCompatO ((propagateSolutionRun trivCompatO twoLevelHierarchy).Q 0
              (twoLevelHierarchy.toUpper 0 0).1)
            (twoLevelHierarchy.N 0 (twoLevelHierarchy.toUpper 0 0).1)
            ((propagateSolutionRun trivCompatO twoLevelHierarchy).Q 0
              (twoLevelHierarchy.toUpper 0 0).2)
            (twoLevelHierarchy.N 0 (twoLevelHierarchy.toUpper 0 0).2)).2) ∧
    (RCPOVERFLOW < sqnorm3 (projectTangent
        (coarseTangentStart trivCompatO ((propagateSolutionRun trivCompatO twoLevelHierarchy).Q 0)
          (twoLevelHierarchy.N 0) (twoLevelHierarchy.toUpper 0 0))
        (twoLevelHierarchy.N (0 + 1) 0)) →
      (propagateSolutionRun trivCompatO twoLevelHierarchy).Q (0 + 1) 0 =
        normalize3 (projectTangent
          (coarseTangentStart trivCompatO
            ((propagateSolutionRun trivCompatO twoLevelHierarchy).Q 0)
            (twoLevelHierarchy.N 0) (twoLevelHierarchy.toUpper 0 0))
          (twoLevelHierarchy.N (0 + 1) 0)) ∧
      sqnorm3 ((propagateSolutionRun trivCompatO twoLevelHierarchy).Q (0 + 1) 0) = 1) ∧
    (¬RCPOVERFLOW < sqnorm3 (projectTangent
        (coarseTangentStart trivCompatO ((propagateSolutionRun trivCompatO twoLevelHierarchy).Q 0)
          (twoLevelHierarchy.N 0) (twoLevelHierarchy.toUpper 0 0))
        (twoLevelHierarchy.N (0 + 1) 0)) →
      (propagateSolutionRun trivCompatO twoLevelHierarchy).Q (0 + 1) 0 =
        projectTangent
          (coarseTangentStart trivCompatO
            ((propagateSolutionRun trivCompatO twoLevelHierarchy).Q 0)
            (twoLevelHierarchy.N 0) (twoLevelHierarchy.toUpper 0 0))
          (twoLevelHierarchy.N (0 + 1) 0)) :=
  propagate_solution_tangent trivCompatO twoLevelHierarchy 0 (by decide) 0 (by decide)
